import Mathlib

/-!
Verification development for the GitHub dashboard data-access core
(`src/tools/github/js`): the typed cache store (`CacheService`), the
rate-limited API client (`GitHubAPI` in `githubApi.js`), and the error
classifier (`ErrorService.js`).  JavaScript objects and `Map`s are embedded
as association lists with JavaScript `Map` semantics (set replaces in place
or appends; delete removes by key; insertion order preserved), JS numbers
that are always integer-valued as `Nat`, and values that may be `NaN` or
`undefined` as `Option Nat`.
-/

namespace GhDash

/-- JS `Map.prototype.get` / property read on an object embedded as an
association list: the value at the key (a JS `Map` holds each key once). -/
def jsMapGet {κ α : Type} [DecidableEq κ] : List (κ × α) → κ → Option α
  | [], _ => none
  | p :: t, k => if p.1 = k then some p.2 else jsMapGet t k

/-- JS `Map.prototype.set`: if the key is present, replace its value in
place (keeping its position); otherwise append the new pair at the end. -/
def jsMapSet {κ α : Type} [DecidableEq κ] : List (κ × α) → κ → α → List (κ × α)
  | [], k, v => [(k, v)]
  | p :: t, k, v => if p.1 = k then (k, v) :: t else p :: jsMapSet t k v

/-- JS `Map.prototype.delete`: remove the entry with the given key. -/
def jsMapDelete {κ α : Type} [DecidableEq κ] (m : List (κ × α)) (k : κ) :
    List (κ × α) :=
  m.filter (fun p => decide (p.1 ≠ k))

/-- Keys of an embedded map, in order. -/
def mapKeys {κ α : Type} (m : List (κ × α)) : List κ :=
  m.map (fun p => p.1)

theorem jsMapGet_eq_none {κ α : Type} [DecidableEq κ] (m : List (κ × α)) (k : κ) :
    jsMapGet m k = none ↔ k ∉ mapKeys m := by
  induction m with
  | nil => simp [jsMapGet, mapKeys]
  | cons p t ih =>
      by_cases hp : p.1 = k
      · simp [jsMapGet, mapKeys, hp]
      · simp [jsMapGet, mapKeys, hp, ih, Ne.symm hp]

theorem jsMapGet_mem {κ α : Type} [DecidableEq κ] {m : List (κ × α)} {k : κ} {v : α}
    (h : jsMapGet m k = some v) : (k, v) ∈ m := by
  induction m with
  | nil => simp [jsMapGet] at h
  | cons p t ih =>
      by_cases hp : p.1 = k
      · simp only [jsMapGet, if_pos hp, Option.some.injEq] at h
        cases p with
        | mk a b =>
            cases hp
            cases h
            exact List.mem_cons_self _ _
      · simp only [jsMapGet, if_neg hp] at h
        exact List.mem_cons_of_mem _ (ih h)

theorem mem_jsMapGet_of_nodup {κ α : Type} [DecidableEq κ] {m : List (κ × α)}
    {k : κ} {v : α} (hnd : (mapKeys m).Nodup) (h : (k, v) ∈ m) :
    jsMapGet m k = some v := by
  induction m with
  | nil => simp at h
  | cons p t ih =>
      simp only [mapKeys, List.map_cons, List.nodup_cons] at hnd
      rcases List.mem_cons.mp h with h | h
      · subst h; simp [jsMapGet]
      · have hpk : ¬(p.1 = k) := by
          intro hk
          exact hnd.1 (hk ▸ List.mem_map.mpr ⟨(k, v), h, rfl⟩)
        simp only [jsMapGet, if_neg hpk]
        exact ih hnd.2 h

theorem jsMapGet_set_self {κ α : Type} [DecidableEq κ] (m : List (κ × α)) (k : κ)
    (v : α) : jsMapGet (jsMapSet m k v) k = some v := by
  induction m with
  | nil => simp [jsMapSet, jsMapGet]
  | cons p t ih =>
      by_cases hp : p.1 = k
      · simp [jsMapSet, hp, jsMapGet]
      · simp [jsMapSet, hp, jsMapGet, ih]

theorem jsMapGet_set_other {κ α : Type} [DecidableEq κ] (m : List (κ × α)) (k k' : κ)
    (v : α) (hne : k' ≠ k) : jsMapGet (jsMapSet m k v) k' = jsMapGet m k' := by
  have h1 : ¬(k = k') := fun h => hne h.symm
  induction m with
  | nil => simp [jsMapSet, jsMapGet, h1]
  | cons p t ih =>
      by_cases hp : p.1 = k
      · have h2 : ¬(p.1 = k') := by rw [hp]; exact h1
        simp [jsMapSet, hp, jsMapGet, h1, h2]
      · by_cases hp' : p.1 = k'
        · simp [jsMapSet, hp, jsMapGet, hp', hne]
        · simp [jsMapSet, hp, jsMapGet, hp', ih]

theorem jsMapGet_delete_self {κ α : Type} [DecidableEq κ] (m : List (κ × α)) (k : κ) :
    jsMapGet (jsMapDelete m k) k = none := by
  rw [jsMapGet_eq_none]
  intro hmem
  obtain ⟨p, hp, hk⟩ := List.mem_map.mp hmem
  have := List.of_mem_filter hp
  simp only [decide_eq_true_eq] at this
  exact this hk

theorem jsMapGet_delete_other {κ α : Type} [DecidableEq κ] (m : List (κ × α))
    (k k' : κ) (hne : k' ≠ k) : jsMapGet (jsMapDelete m k) k' = jsMapGet m k' := by
  induction m with
  | nil => rfl
  | cons p t ih =>
      by_cases hp : p.1 = k
      · have hd : decide (p.1 ≠ k) = false := by simp [hp]
        have hp' : ¬(p.1 = k') := by rw [hp]; exact fun h => hne h.symm
        have hstep : jsMapDelete (p :: t) k = jsMapDelete t k := by
          unfold jsMapDelete
          rw [List.filter_cons, hd]
          simp
        rw [hstep, ih]
        simp [jsMapGet, hp']
      · have hd : decide (p.1 ≠ k) = true := by simp [hp]
        have hstep : jsMapDelete (p :: t) k = p :: jsMapDelete t k := by
          unfold jsMapDelete
          rw [List.filter_cons, hd]
          simp
        rw [hstep]
        by_cases hp' : p.1 = k'
        · simp [jsMapGet, hp']
        · simp [jsMapGet, hp', ih]

theorem mapKeys_set {κ α : Type} [DecidableEq κ] (m : List (κ × α)) (k : κ) (v : α) :
    mapKeys (jsMapSet m k v) = if k ∈ mapKeys m then mapKeys m else mapKeys m ++ [k] := by
  induction m with
  | nil => simp [jsMapSet, mapKeys]
  | cons p t ih =>
      by_cases hp : p.1 = k
      · simp [jsMapSet, hp, mapKeys]
      · have hkp : ¬(k = p.1) := fun h => hp h.symm
        have hstep : jsMapSet (p :: t) k v = p :: jsMapSet t k v := by
          simp [jsMapSet, hp]
        rw [hstep]
        have hcons : mapKeys (p :: jsMapSet t k v) = p.1 :: mapKeys (jsMapSet t k v) := rfl
        rw [hcons, ih]
        simp only [mapKeys, List.map_cons]
        by_cases hk : k ∈ List.map (fun p => p.1) t
        · simp [hk, hkp]
        · simp [hk, hkp]

theorem mapKeys_set_nodup {κ α : Type} [DecidableEq κ] (m : List (κ × α)) (k : κ)
    (v : α) (hnd : (mapKeys m).Nodup) : (mapKeys (jsMapSet m k v)).Nodup := by
  rw [mapKeys_set]
  by_cases hk : k ∈ mapKeys m
  · simpa [hk] using hnd
  · simp only [hk, if_false]
    exact List.Nodup.append hnd (List.nodup_singleton k)
      (by simpa [List.disjoint_singleton] using hk)

theorem length_set {κ α : Type} [DecidableEq κ] (m : List (κ × α)) (k : κ) (v : α) :
    (jsMapSet m k v).length = if k ∈ mapKeys m then m.length else m.length + 1 := by
  induction m with
  | nil => simp [jsMapSet, mapKeys]
  | cons p t ih =>
      by_cases hp : p.1 = k
      · simp [jsMapSet, hp, mapKeys]
      · have hkp : ¬(k = p.1) := fun h => hp h.symm
        have hstep : jsMapSet (p :: t) k v = p :: jsMapSet t k v := by
          simp [jsMapSet, hp]
        rw [hstep]
        have hcons : (p :: jsMapSet t k v).length = (jsMapSet t k v).length + 1 := rfl
        rw [hcons, ih]
        simp only [mapKeys, List.map_cons]
        by_cases hk : k ∈ List.map (fun p => p.1) t
        · simp [hk, hkp]
        · simp [hk, hkp]

/-! ## Review-state derivation (`githubApi.js`, `determineReviewState`) -/

/-- One review record as consumed by `determineReviewState`: the reviewer id
(`review.user.id`), the review state string, and the submission time
(`review.submitted_at`, compared in the source via `new Date(...)`, i.e.
numerically on the epoch timeline — embedded as a `Nat`). -/
structure Review where
  userId : Nat
  state : String
  submittedAt : Nat
deriving DecidableEq, Repr

/-- One step of the `reviews.forEach` loop of `determineReviewState`: look up
the reviewer in the `latestReviews` map and replace the kept review only when
the incoming one was submitted strictly later. -/
def latestStep (m : List (Nat × Review)) (r : Review) : List (Nat × Review) :=
  match jsMapGet m r.userId with
  | none => jsMapSet m r.userId r
  | some existing =>
      if existing.submittedAt < r.submittedAt then jsMapSet m r.userId r else m

/-- The `latestReviews` map of `determineReviewState`: latest review kept per
reviewer id, built by folding the review list over an initially empty map. -/
def latestReviews (reviews : List Review) : List (Nat × Review) :=
  reviews.foldl latestStep []

/-- Model of `determineReviewState` (githubApi.js lines 555-572): `PENDING` for an
empty list, otherwise `CHANGES_REQUESTED` if any kept latest review requests
changes, else `APPROVED` if any approves, else `PENDING`. -/
def determineReviewState (reviews : List Review) : String :=
  if reviews.length = 0 then "PENDING"
  else if "CHANGES_REQUESTED" ∈ (latestReviews reviews).map (fun p => p.2.state) then
    "CHANGES_REQUESTED"
  else if "APPROVED" ∈ (latestReviews reviews).map (fun p => p.2.state) then
    "APPROVED"
  else "PENDING"

/-- Spec-side fold over one reviewer's reviews: keep the most recently
submitted review, a later review replacing the kept one only when its
`submittedAt` is strictly greater (equal timestamps keep the first seen). -/
def keepLatestFrom (acc : Option Review) (rs : List Review) : Option Review :=
  rs.foldl (fun acc r =>
    match acc with
    | none => some r
    | some e => if e.submittedAt < r.submittedAt then some r else acc) acc

/-- Modelled from the spec: the single review kept for one reviewer's
review group. -/
def keepLatest (rs : List Review) : Option Review :=
  keepLatestFrom none rs

/-- Modelled from the spec: reviewer ids occurring in the review list. -/
def reviewerIds (reviews : List Review) : List Nat :=
  (reviews.map (fun r => r.userId)).dedup

/-- Modelled from the spec: the latest-per-reviewer review set obtained by
grouping reviews by reviewer and keeping the most recent per group. -/
def specLatestSet (reviews : List Review) : List Review :=
  (reviewerIds reviews).filterMap
    (fun uid => keepLatest (reviews.filter (fun r => decide (r.userId = uid))))

/-- Modelled from the spec: overall state is `CHANGES_REQUESTED` if any
latest review is `CHANGES_REQUESTED`, else `APPROVED` if any latest review is
`APPROVED`, else `PENDING` (also for zero reviews). -/
def specDetermineReviewState (reviews : List Review) : String :=
  if (specLatestSet reviews).any (fun r => decide (r.state = "CHANGES_REQUESTED")) then
    "CHANGES_REQUESTED"
  else if (specLatestSet reviews).any (fun r => decide (r.state = "APPROVED")) then
    "APPROVED"
  else "PENDING"

theorem keepLatestFrom_nil (acc : Option Review) : keepLatestFrom acc [] = acc := rfl

theorem keepLatestFrom_cons (acc : Option Review) (r : Review) (rs : List Review) :
    keepLatestFrom acc (r :: rs) =
      keepLatestFrom
        (match acc with
          | none => some r
          | some e => if e.submittedAt < r.submittedAt then some r else acc) rs := by
  cases acc with
  | none => rfl
  | some e => rfl

theorem keepLatestFrom_cons_none (r : Review) (rs : List Review) :
    keepLatestFrom none (r :: rs) = keepLatestFrom (some r) rs := rfl

theorem keepLatestFrom_cons_some (e r : Review) (rs : List Review) :
    keepLatestFrom (some e) (r :: rs) =
      keepLatestFrom
        (if e.submittedAt < r.submittedAt then some r else some e) rs := rfl

theorem latestStep_get (m : List (Nat × Review)) (r : Review) (uid : Nat) :
    jsMapGet (latestStep m r) uid =
      if r.userId = uid then
        (match jsMapGet m uid with
          | none => some r
          | some e => if e.submittedAt < r.submittedAt then some r else some e)
      else jsMapGet m uid := by
  by_cases huid : r.userId = uid
  · subst huid
    unfold latestStep
    cases hm : jsMapGet m r.userId with
    | none => simp [jsMapGet_set_self, hm]
    | some e =>
        by_cases hlt : e.submittedAt < r.submittedAt
        · simp [hlt, jsMapGet_set_self, hm]
        · simp [hlt, hm]
  · unfold latestStep
    cases hm : jsMapGet m r.userId with
    | none => simp [huid, jsMapGet_set_other _ _ _ _ (fun h => huid h.symm)]
    | some e =>
        by_cases hlt : e.submittedAt < r.submittedAt
        · simp [huid, hlt, jsMapGet_set_other _ _ _ _ (fun h => huid h.symm)]
        · simp [huid, hlt]

/-- The map built by the fold, read at any reviewer id, equals the spec-side
per-reviewer fold over that reviewer's filtered group. -/
theorem foldl_latestStep_get (l : List Review) :
    ∀ (m : List (Nat × Review)) (uid : Nat),
      jsMapGet (l.foldl latestStep m) uid =
        keepLatestFrom (jsMapGet m uid) (l.filter (fun r => decide (r.userId = uid))) := by
  induction l with
  | nil => intro m uid; rfl
  | cons r t ih =>
      intro m uid
      rw [List.foldl_cons, ih]
      by_cases huid : r.userId = uid
      · rw [List.filter_cons_of_pos (by simp [huid]), keepLatestFrom_cons]
        rw [latestStep_get]
        simp only [huid, if_true]
        cases jsMapGet m uid with
        | none => rfl
        | some e =>
            by_cases hlt : e.submittedAt < r.submittedAt <;> simp [hlt]
      · rw [List.filter_cons_of_neg (by simp [huid])]
        rw [latestStep_get]
        simp [huid]

theorem keepLatest_eq_get (reviews : List Review) (uid : Nat) :
    jsMapGet (latestReviews reviews) uid =
      keepLatest (reviews.filter (fun r => decide (r.userId = uid))) := by
  unfold latestReviews keepLatest
  rw [foldl_latestStep_get]
  rfl

theorem latestReviews_keys_nodup (l : List Review) :
    (mapKeys (latestReviews l)).Nodup := by
  suffices h : ∀ m : List (Nat × Review), (mapKeys m).Nodup →
      (mapKeys (l.foldl latestStep m)).Nodup by
    exact h [] (by simp [mapKeys])
  induction l with
  | nil => intro m hm; exact hm
  | cons r t ih =>
      intro m hm
      rw [List.foldl_cons]
      apply ih
      unfold latestStep
      cases jsMapGet m r.userId with
      | none => exact mapKeys_set_nodup _ _ _ hm
      | some e =>
          by_cases hlt : e.submittedAt < r.submittedAt
          · simpa [hlt] using mapKeys_set_nodup m r.userId r hm
          · simpa [hlt] using hm

theorem keepLatestFrom_some_ne_none : ∀ (rs : List Review) (a : Review),
    keepLatestFrom (some a) rs ≠ none := by
  intro rs
  induction rs with
  | nil => intro a h; exact Option.noConfusion h
  | cons r t ih =>
      intro a
      rw [keepLatestFrom_cons_some]
      by_cases hlt : a.submittedAt < r.submittedAt
      · rw [if_pos hlt]; exact ih r
      · rw [if_neg hlt]; exact ih a

theorem keepLatest_eq_none_iff (rs : List Review) :
    keepLatest rs = none ↔ rs = [] := by
  cases rs with
  | nil => simp [keepLatest, keepLatestFrom]
  | cons r t =>
      constructor
      · intro h
        unfold keepLatest at h
        rw [keepLatestFrom_cons_none] at h
        exact absurd h (keepLatestFrom_some_ne_none t r)
      · intro h; exact absurd h (List.cons_ne_nil r t)

/-- Any review returned by the spec-side per-group fold is a member of the
group with maximal submission time (and dominates the seed accumulator). -/
theorem keepLatestFrom_le : ∀ (rs : List Review) (acc : Option Review) (v : Review),
    keepLatestFrom acc rs = some v →
      (acc = some v ∨ v ∈ rs) ∧
        (∀ a, acc = some a → a.submittedAt ≤ v.submittedAt) ∧
        (∀ r ∈ rs, r.submittedAt ≤ v.submittedAt) := by
  intro rs
  induction rs with
  | nil =>
      intro acc v h
      rw [keepLatestFrom_nil] at h
      subst h
      exact ⟨Or.inl rfl, fun a ha => by cases ha; exact le_refl _, by simp⟩
  | cons r t ih =>
      intro acc v h
      cases acc with
      | none =>
          rw [keepLatestFrom_cons_none] at h
          obtain ⟨h1, h2, h3⟩ := ih (some r) v h
          have hrv : r.submittedAt ≤ v.submittedAt := h2 r rfl
          refine ⟨?_, ?_, ?_⟩
          · rcases h1 with h1 | h1
            · have hre : r = v := Option.some.inj h1
              right; rw [← hre]; exact List.mem_cons_self _ _
            · right; exact List.mem_cons_of_mem _ h1
          · intro a ha; cases ha
          · intro x hx
            rcases List.mem_cons.mp hx with hx | hx
            · subst hx; exact hrv
            · exact h3 x hx
      | some e =>
          rw [keepLatestFrom_cons_some] at h
          by_cases hlt : e.submittedAt < r.submittedAt
          · rw [if_pos hlt] at h
            obtain ⟨h1, h2, h3⟩ := ih (some r) v h
            have hrv : r.submittedAt ≤ v.submittedAt := h2 r rfl
            refine ⟨?_, ?_, ?_⟩
            · rcases h1 with h1 | h1
              · have hre : r = v := Option.some.inj h1
                right; rw [← hre]; exact List.mem_cons_self _ _
              · right; exact List.mem_cons_of_mem _ h1
            · intro a ha
              cases Option.some.inj ha
              exact le_trans (le_of_lt hlt) hrv
            · intro x hx
              rcases List.mem_cons.mp hx with hx | hx
              · subst hx; exact hrv
              · exact h3 x hx
          · rw [if_neg hlt] at h
            obtain ⟨h1, h2, h3⟩ := ih (some e) v h
            have hev : e.submittedAt ≤ v.submittedAt := h2 e rfl
            have hrv : r.submittedAt ≤ v.submittedAt :=
              le_trans (Nat.le_of_not_lt hlt) hev
            refine ⟨?_, ?_, ?_⟩
            · rcases h1 with h1 | h1
              · exact Or.inl h1
              · right; exact List.mem_cons_of_mem _ h1
            · intro a ha
              cases Option.some.inj ha
              exact hev
            · intro x hx
              rcases List.mem_cons.mp hx with hx | hx
              · subst hx; exact hrv
              · exact h3 x hx

/-- When submission times are unambiguous inside a group, the group's unique
maximal review is exactly the review the spec-side fold keeps. -/
theorem keepLatest_of_max (rs : List Review) (v : Review)
    (huniq : ∀ r ∈ rs, ∀ r' ∈ rs, r.submittedAt = r'.submittedAt → r = r')
    (hv : v ∈ rs) (hmax : ∀ r ∈ rs, r.submittedAt ≤ v.submittedAt) :
    keepLatest rs = some v := by
  cases hk : keepLatest rs with
  | none =>
      rw [keepLatest_eq_none_iff] at hk
      subst hk
      simp at hv
  | some m =>
      obtain ⟨h1, _, h3⟩ := keepLatestFrom_le rs none m hk
      have hm : m ∈ rs := by
        rcases h1 with h1 | h1
        · cases h1
        · exact h1
      have hmv : m = v :=
        huniq m hm v hv (le_antisymm (hmax m hm) (h3 v hv))
      rw [hmv]

/-- A state string appears among the values of the code's latest-review map
iff it appears in the spec-side latest-per-reviewer set. -/
theorem mem_state_iff (l : List Review) (s : String) :
    (∃ p ∈ latestReviews l, p.2.state = s) ↔
      ∃ v ∈ specLatestSet l, v.state = s := by
  constructor
  · rintro ⟨p, hp, hs⟩
    have hp' : (p.1, p.2) ∈ latestReviews l := by
      cases p; exact hp
    have hget : jsMapGet (latestReviews l) p.1 = some p.2 :=
      mem_jsMapGet_of_nodup (latestReviews_keys_nodup l) hp'
    rw [keepLatest_eq_get] at hget
    have hne : l.filter (fun r => decide (r.userId = p.1)) ≠ [] := by
      intro hnil
      rw [hnil] at hget
      exact Option.noConfusion hget
    obtain ⟨r0, hr0⟩ := List.exists_mem_of_ne_nil _ hne
    have hr0l : r0 ∈ l := List.mem_of_mem_filter hr0
    have hr0u : r0.userId = p.1 := by simpa using List.of_mem_filter hr0
    have huid : p.1 ∈ reviewerIds l := by
      unfold reviewerIds
      rw [List.mem_dedup]
      exact List.mem_map.mpr ⟨r0, hr0l, hr0u⟩
    refine ⟨p.2, ?_, hs⟩
    unfold specLatestSet
    exact List.mem_filterMap.mpr ⟨p.1, huid, hget⟩
  · rintro ⟨v, hv, hs⟩
    unfold specLatestSet at hv
    obtain ⟨uid, huid, hkeep⟩ := List.mem_filterMap.mp hv
    have hget : jsMapGet (latestReviews l) uid = some v := by
      rw [keepLatest_eq_get]; exact hkeep
    exact ⟨(uid, v), jsMapGet_mem hget, hs⟩

/-- Refinement: the source's `determineReviewState` computes exactly the
state described by the spec's latest-per-reviewer derivation rule. -/
theorem determine_eq_spec (l : List Review) :
    determineReviewState l = specDetermineReviewState l := by
  have hmemCode : ∀ s : String,
      (s ∈ (latestReviews l).map (fun p => p.2.state)) ↔
        ∃ p ∈ latestReviews l, p.2.state = s := by
    intro s
    simp [List.mem_map]
  have hanySpec : ∀ s : String,
      ((specLatestSet l).any (fun r => decide (r.state = s)) = true) ↔
        ∃ v ∈ specLatestSet l, v.state = s := by
    intro s
    simp [List.any_eq_true]
  by_cases hnil : l.length = 0
  · have hl : l = [] := List.length_eq_zero.mp hnil
    subst hl
    simp [determineReviewState, specDetermineReviewState, specLatestSet, reviewerIds]
  · unfold determineReviewState specDetermineReviewState
    rw [if_neg hnil]
    by_cases h1 : ∃ p ∈ latestReviews l, p.2.state = "CHANGES_REQUESTED"
    · rw [if_pos ((hmemCode _).mpr h1),
        if_pos ((hanySpec _).mpr ((mem_state_iff l _).mp h1))]
    · rw [if_neg (fun h => h1 ((hmemCode _).mp h)),
        if_neg (fun h => h1 ((mem_state_iff l _).mpr ((hanySpec _).mp h)))]
      by_cases h2 : ∃ p ∈ latestReviews l, p.2.state = "APPROVED"
      · rw [if_pos ((hmemCode _).mpr h2),
          if_pos ((hanySpec _).mpr ((mem_state_iff l _).mp h2))]
      · rw [if_neg (fun h => h2 ((hmemCode _).mp h)),
          if_neg (fun h => h2 ((mem_state_iff l _).mpr ((hanySpec _).mp h)))]

/-- Membership in the spec-side latest set transfers along a permutation of
the review list, provided no reviewer has two distinct reviews with the same
submission time. -/
theorem specLatestSet_mem_of_perm (l₁ l₂ : List Review) (hperm : l₁.Perm l₂)
    (huniq : ∀ r ∈ l₁, ∀ r' ∈ l₁,
      r.userId = r'.userId → r.submittedAt = r'.submittedAt → r = r')
    (v : Review) (hv : v ∈ specLatestSet l₁) : v ∈ specLatestSet l₂ := by
  unfold specLatestSet at hv ⊢
  obtain ⟨uid, huid, hkeep⟩ := List.mem_filterMap.mp hv
  obtain ⟨h1, _, h3⟩ := keepLatestFrom_le _ none v hkeep
  have hvmem : v ∈ l₁.filter (fun r => decide (r.userId = uid)) := by
    rcases h1 with h1 | h1
    · cases h1
    · exact h1
  have hfperm := hperm.filter (fun r => decide (r.userId = uid))
  have hvmem₂ : v ∈ l₂.filter (fun r => decide (r.userId = uid)) :=
    hfperm.mem_iff.mp hvmem
  have hmax₂ : ∀ r ∈ l₂.filter (fun r => decide (r.userId = uid)),
      r.submittedAt ≤ v.submittedAt := by
    intro r hr
    exact h3 r (hfperm.mem_iff.mpr hr)
  have huniq₂ : ∀ r ∈ l₂.filter (fun r => decide (r.userId = uid)),
      ∀ r' ∈ l₂.filter (fun r => decide (r.userId = uid)),
        r.submittedAt = r'.submittedAt → r = r' := by
    intro r hr r' hr' ht
    have hrl : r ∈ l₁ := hperm.mem_iff.mpr (List.mem_of_mem_filter hr)
    have hrl' : r' ∈ l₁ := hperm.mem_iff.mpr (List.mem_of_mem_filter hr')
    have hu : r.userId = uid := by simpa using List.of_mem_filter hr
    have hu' : r'.userId = uid := by simpa using List.of_mem_filter hr'
    exact huniq r hrl r' hrl' (hu.trans hu'.symm) ht
  have hkeep₂ := keepLatest_of_max _ v huniq₂ hvmem₂ hmax₂
  have huid₂ : uid ∈ reviewerIds l₂ := by
    unfold reviewerIds at huid ⊢
    rw [List.mem_dedup] at huid ⊢
    obtain ⟨r0, hr0, hru⟩ := List.mem_map.mp huid
    exact List.mem_map.mpr ⟨r0, hperm.mem_iff.mp hr0, hru⟩
  exact List.mem_filterMap.mpr ⟨uid, huid₂, hkeep₂⟩

/-- Permutation invariance of the derived review state, under the hypothesis
that no reviewer has two distinct reviews with equal `submittedAt`. -/
theorem determineReviewState_perm (l₁ l₂ : List Review) (hperm : l₁.Perm l₂)
    (huniq : ∀ r ∈ l₁, ∀ r' ∈ l₁,
      r.userId = r'.userId → r.submittedAt = r'.submittedAt → r = r') :
    determineReviewState l₁ = determineReviewState l₂ := by
  have huniq₂ : ∀ r ∈ l₂, ∀ r' ∈ l₂,
      r.userId = r'.userId → r.submittedAt = r'.submittedAt → r = r' := by
    intro r hr r' hr' hu ht
    exact huniq r (hperm.mem_iff.mpr hr) r' (hperm.mem_iff.mpr hr') hu ht
  have hany : ∀ s : String,
      ((specLatestSet l₁).any (fun r => decide (r.state = s))) =
        ((specLatestSet l₂).any (fun r => decide (r.state = s))) := by
    intro s
    rw [Bool.eq_iff_iff]
    simp only [List.any_eq_true, decide_eq_true_eq]
    constructor
    · rintro ⟨v, hv, hs⟩
      exact ⟨v, specLatestSet_mem_of_perm l₁ l₂ hperm huniq v hv, hs⟩
    · rintro ⟨v, hv, hs⟩
      exact ⟨v, specLatestSet_mem_of_perm l₂ l₁ hperm.symm huniq₂ v hv, hs⟩
  rw [determine_eq_spec, determine_eq_spec]
  unfold specDetermineReviewState
  rw [hany "CHANGES_REQUESTED", hany "APPROVED"]

/-- C2: `determineReviewState` keeps only the most recently submitted review
per reviewer (a later review replaces the kept one only when its
`submittedAt` is strictly greater; equal timestamps keep the first seen) and
returns CHANGES_REQUESTED if any kept latest review is CHANGES_REQUESTED,
else APPROVED if any is APPROVED, else PENDING (including the empty list):
it coincides with the spec-transcribed latest-per-reviewer derivation, and
on [(reviewer 1, APPROVED, t1), (reviewer 1, CHANGES_REQUESTED, t2)] it
yields CHANGES_REQUESTED. -/
theorem determineReviewState_correct :
    (∀ reviews : List Review,
        determineReviewState reviews = specDetermineReviewState reviews) ∧
      determineReviewState
        [{ userId := 1, state := "APPROVED", submittedAt := 1 },
         { userId := 1, state := "CHANGES_REQUESTED", submittedAt := 2 }] =
        "CHANGES_REQUESTED" :=
  ⟨determine_eq_spec, rfl⟩

/-- C3 counterexample: permuting a review list can change the derived state.
With two reviews of the same reviewer carrying equal timestamps, the
tie-keeps-first rule makes the outcome order-dependent: one order yields
APPROVED, the swapped order yields CHANGES_REQUESTED. -/
theorem determineReviewState_perm_cex :
    List.Perm
        [{ userId := 1, state := "APPROVED", submittedAt := 5 : Review },
         { userId := 1, state := "CHANGES_REQUESTED", submittedAt := 5 }]
        [{ userId := 1, state := "CHANGES_REQUESTED", submittedAt := 5 : Review },
         { userId := 1, state := "APPROVED", submittedAt := 5 }] ∧
      determineReviewState
        [{ userId := 1, state := "APPROVED", submittedAt := 5 },
         { userId := 1, state := "CHANGES_REQUESTED", submittedAt := 5 }] = "APPROVED" ∧
      determineReviewState
        [{ userId := 1, state := "CHANGES_REQUESTED", submittedAt := 5 },
         { userId := 1, state := "APPROVED", submittedAt := 5 }] = "CHANGES_REQUESTED" :=
  ⟨List.Perm.swap _ _ _, rfl, rfl⟩

/-- C3 (amended): permuting the review list never changes the derived
`reviewState`, provided no reviewer has two distinct reviews with equal
`submittedAt` timestamps (equal-timestamp ties are resolved by input order,
so the unrestricted claim fails). -/
theorem determineReviewState_perm_amended (l₁ l₂ : List Review)
    (hperm : l₁.Perm l₂)
    (huniq : ∀ r ∈ l₁, ∀ r' ∈ l₁,
      r.userId = r'.userId → r.submittedAt = r'.submittedAt → r = r') :
    determineReviewState l₁ = determineReviewState l₂ :=
  determineReviewState_perm l₁ l₂ hperm huniq

/-- Witness for the amended C3 theorem at a concrete permutation pair. -/
theorem determineReviewState_perm_amended_witness :
    determineReviewState
        [{ userId := 1, state := "APPROVED", submittedAt := 1 },
         { userId := 1, state := "CHANGES_REQUESTED", submittedAt := 2 }] =
      determineReviewState
        [{ userId := 1, state := "CHANGES_REQUESTED", submittedAt := 2 },
         { userId := 1, state := "APPROVED", submittedAt := 1 }] :=
  determineReviewState_perm_amended _ _ (List.Perm.swap _ _ _) (by decide)

/-! ## Typed cache store (`CacheService` in actionsApi.js lines 177-541) -/

/-- One cache entry as stored by `CacheService.set` (the `type` tag the
source also stores is the partition's own name and is omitted from the
per-partition model). -/
structure CacheEntry (α : Type) where
  data : α
  createdAt : Nat
  lastAccessed : Nat
  expiresAt : Nat
deriving DecidableEq, Repr

/-- A single cache partition: one of the `Map`s held in `this.caches`. -/
abbrev Partition (α : Type) := List (String × CacheEntry α)

/-- Model of `CacheService.get` on one partition: miss on absent or expired keys
(`cachedItem.expiresAt && cachedItem.expiresAt < Date.now()`, so an entry is
stale only strictly after `expiresAt`, and a zero `expiresAt` is falsy);
a stale entry is deleted; a hit updates `lastAccessed` and returns the
entry. -/
def cacheGet {α : Type} (p : Partition α) (now : Nat) (key : String) :
    Option (CacheEntry α) × Partition α :=
  match jsMapGet p key with
  | none => (none, p)
  | some item =>
      if item.expiresAt ≠ 0 ∧ item.expiresAt < now then
        (none, jsMapDelete p key)
      else
        (some { item with lastAccessed := now },
         jsMapSet p key { item with lastAccessed := now })

/-- The `duration || this.defaultDurations[...] || 60` chain of
`CacheService.set`, on integer-valued durations (`0` and `undefined` are
falsy). -/
def durMinutes (ttlOverride : Option Nat) (dflt : Nat) : Nat :=
  match ttlOverride with
  | some d => if d = 0 then (if dflt = 0 then 60 else dflt) else d
  | none => if dflt = 0 then 60 else dflt

/-- Model of `CacheService._evictLRU`: sort the entries by `lastAccessed` ascending
(a stable JS sort), and delete the oldest `max(1, floor(length * 0.1))`
keys (for these magnitudes `floor(length * 0.1)` equals `length / 10`). -/
def evictLRU {α : Type} (p : Partition α) : Partition α :=
  if p.length = 0 then p
  else
    let entries := p.mergeSort
      (fun a b => decide (a.2.lastAccessed ≤ b.2.lastAccessed))
    let removeCount := max 1 (p.length / 10)
    ((entries.take removeCount).map (fun e => e.1)).foldl jsMapDelete p

/-- Model of `CacheService.set` on one partition: compute `expiresAt` from the
override or the partition default, evict LRU entries first when the
partition is at (or beyond) its size limit, then store the entry. -/
def cacheSet {α : Type} (p : Partition α) (now : Nat) (dfltTtl : Nat)
    (sizeLimit : Nat) (key : String) (data : α) (ttlOverride : Option Nat) :
    Partition α :=
  let expiresAt := now + durMinutes ttlOverride dfltTtl * 60 * 1000
  let p1 := if sizeLimit ≤ p.length then evictLRU p else p
  jsMapSet p1 key
    { data := data, createdAt := now, lastAccessed := now, expiresAt := expiresAt }

/-- Model of `CacheService.runCleanup` on one partition: drop every entry whose
(truthy) `expiresAt` lies strictly in the past. -/
def cacheCleanup {α : Type} (p : Partition α) (now : Nat) : Partition α :=
  p.filter (fun e => !(decide (e.2.expiresAt ≠ 0) && decide (e.2.expiresAt < now)))

/-- One observable operation against a cache partition. -/
inductive CacheOp (α : Type) where
  | get (now : Nat) (key : String)
  | set (now : Nat) (key : String) (data : α) (ttl : Option Nat)
  | remove (key : String)
  | clear
  | cleanup (now : Nat)

/-- Apply one operation to a partition with default TTL `dflt` and size
limit `limit` (mirroring `get`/`set`/`remove`/`clearType`/`runCleanup`). -/
def applyOp {α : Type} (dflt limit : Nat) (p : Partition α) :
    CacheOp α → Partition α
  | .get now k => (cacheGet p now k).2
  | .set now k d ttl => cacheSet p now dflt limit k d ttl
  | .remove k => jsMapDelete p k
  | .clear => []
  | .cleanup now => cacheCleanup p now

/-- Run a sequence of cache operations. -/
def runOps {α : Type} (dflt limit : Nat) (p : Partition α)
    (ops : List (CacheOp α)) : Partition α :=
  ops.foldl (applyOp dflt limit) p

theorem jsMapDelete_sublist {κ α : Type} [DecidableEq κ] (m : List (κ × α))
    (k : κ) : (jsMapDelete m k).Sublist m :=
  List.filter_sublist m

theorem foldl_delete_sublist {κ α : Type} [DecidableEq κ] :
    ∀ (vs : List κ) (m : List (κ × α)), (vs.foldl jsMapDelete m).Sublist m := by
  intro vs
  induction vs with
  | nil => intro m; exact List.Sublist.refl m
  | cons v t ih =>
      intro m
      exact List.Sublist.trans (ih (jsMapDelete m v)) (jsMapDelete_sublist m v)

theorem mapKeys_sublist {κ α : Type} {m m' : List (κ × α)}
    (h : m'.Sublist m) : (mapKeys m').Sublist (mapKeys m) :=
  List.Sublist.map _ h

theorem mapKeys_delete {κ α : Type} [DecidableEq κ] (m : List (κ × α)) (k : κ) :
    mapKeys (jsMapDelete m k) = (mapKeys m).filter (fun x => decide (x ≠ k)) := by
  unfold mapKeys jsMapDelete
  rw [List.filter_map]
  rfl

theorem jsMapDelete_length {κ α : Type} [DecidableEq κ] (m : List (κ × α)) (k : κ)
    (hnd : (mapKeys m).Nodup) (hk : k ∈ mapKeys m) :
    (jsMapDelete m k).length + 1 = m.length := by
  induction m with
  | nil => simp [mapKeys] at hk
  | cons p t ih =>
      simp only [mapKeys, List.map_cons, List.nodup_cons] at hnd
      by_cases hp : p.1 = k
      · have hd : decide (p.1 ≠ k) = false := by simp [hp]
        have hnone : ∀ q ∈ t, decide (q.1 ≠ k) = true := by
          intro q hq
          have : q.1 ≠ k := by
            intro hqk
            exact hnd.1 (hp ▸ hqk ▸ List.mem_map.mpr ⟨q, hq, rfl⟩)
          simp [this]
        have : jsMapDelete (p :: t) k = t := by
          unfold jsMapDelete
          rw [List.filter_cons, hd]
          simp only [Bool.false_eq_true, if_false]
          exact List.filter_eq_self.mpr hnone
        rw [this]
        rfl
      · have hd : decide (p.1 ≠ k) = true := by simp [hp]
        have hk' : k ∈ mapKeys t := by
          have hkc : k ∈ p.1 :: mapKeys t := hk
          rcases List.mem_cons.mp hkc with h | h
          · exact absurd h.symm hp
          · exact h
        have hstep : jsMapDelete (p :: t) k = p :: jsMapDelete t k := by
          unfold jsMapDelete
          rw [List.filter_cons, hd]
          simp
        rw [hstep]
        have hih := ih (by simpa [mapKeys] using hnd.2) hk'
        simp only [List.length_cons]
        omega

theorem foldl_delete_length {κ α : Type} [DecidableEq κ] :
    ∀ (vs : List κ) (m : List (κ × α)), (mapKeys m).Nodup → vs.Nodup →
      (∀ v ∈ vs, v ∈ mapKeys m) →
      (vs.foldl jsMapDelete m).length + vs.length = m.length := by
  intro vs
  induction vs with
  | nil => intro m _ _ _; simp
  | cons v t ih =>
      intro m hnd hvs hmem
      rw [List.foldl_cons]
      have hv : v ∈ mapKeys m := hmem v (List.mem_cons_self _ _)
      have hnd' : (mapKeys (jsMapDelete m v)).Nodup :=
        List.Nodup.sublist (mapKeys_sublist (jsMapDelete_sublist m v)) hnd
      have hvs' : t.Nodup := (List.nodup_cons.mp hvs).2
      have hvnot : v ∉ t := (List.nodup_cons.mp hvs).1
      have hmem' : ∀ w ∈ t, w ∈ mapKeys (jsMapDelete m v) := by
        intro w hw
        rw [mapKeys_delete]
        refine List.mem_filter.mpr ⟨hmem w (List.mem_cons_of_mem _ hw), ?_⟩
        have : w ≠ v := fun h => hvnot (h ▸ hw)
        simp [this]
      have hrec := ih (jsMapDelete m v) hnd' hvs' hmem'
      have hdel := jsMapDelete_length m v hnd hv
      simp only [List.length_cons]
      omega

theorem cacheGet_eq_of_get_none {α : Type} (p : Partition α) (now : Nat)
    (key : String) (h : jsMapGet p key = none) :
    cacheGet p now key = (none, p) := by
  unfold cacheGet
  rw [h]

theorem cacheGet_eq_of_get_some {α : Type} (p : Partition α) (now : Nat)
    (key : String) (it : CacheEntry α) (h : jsMapGet p key = some it) :
    cacheGet p now key =
      if it.expiresAt ≠ 0 ∧ it.expiresAt < now then (none, jsMapDelete p key)
      else (some { it with lastAccessed := now },
        jsMapSet p key { it with lastAccessed := now }) := by
  unfold cacheGet
  rw [h]

theorem evictLRU_sublist {α : Type} (p : Partition α) :
    (evictLRU p).Sublist p := by
  unfold evictLRU
  by_cases h : p.length = 0
  · rw [if_pos h]
  · rw [if_neg h]
    exact foldl_delete_sublist _ p

/-- At least `max 1 (length / 10)` entries disappear from a non-empty
partition on eviction (exactly that many, keys being unique). -/
theorem evictLRU_length {α : Type} (p : Partition α)
    (hnd : (mapKeys p).Nodup) (hne : p.length ≠ 0) :
    (evictLRU p).length + max 1 (p.length / 10) = p.length := by
  have hperm := List.mergeSort_perm p
    (fun a b : String × CacheEntry α => decide (a.2.lastAccessed ≤ b.2.lastAccessed))
  have hlen : (p.mergeSort
      (fun a b : String × CacheEntry α =>
        decide (a.2.lastAccessed ≤ b.2.lastAccessed))).length = p.length :=
    hperm.length_eq
  have hrc : max 1 (p.length / 10) ≤ p.length := by
    have h1 : 1 ≤ p.length := Nat.one_le_iff_ne_zero.mpr hne
    have h2 : p.length / 10 ≤ p.length := Nat.div_le_self _ _
    omega
  have hkeysperm : (mapKeys (p.mergeSort
      (fun a b : String × CacheEntry α =>
        decide (a.2.lastAccessed ≤ b.2.lastAccessed)))).Perm (mapKeys p) :=
    hperm.map _
  have hndE := hkeysperm.nodup_iff.mpr hnd
  have hvs_eq : ((p.mergeSort
        (fun a b : String × CacheEntry α =>
          decide (a.2.lastAccessed ≤ b.2.lastAccessed))).take
          (max 1 (p.length / 10))).map (fun e => e.1) =
      (mapKeys (p.mergeSort
        (fun a b : String × CacheEntry α =>
          decide (a.2.lastAccessed ≤ b.2.lastAccessed)))).take
          (max 1 (p.length / 10)) := by
    unfold mapKeys
    exact List.map_take _ _ _
  have hvsnd : (((p.mergeSort
        (fun a b : String × CacheEntry α =>
          decide (a.2.lastAccessed ≤ b.2.lastAccessed))).take
          (max 1 (p.length / 10))).map (fun e => e.1)).Nodup := by
    rw [hvs_eq]
    exact List.Nodup.sublist (List.take_sublist _ _) hndE
  have hvsmem : ∀ v ∈ ((p.mergeSort
        (fun a b : String × CacheEntry α =>
          decide (a.2.lastAccessed ≤ b.2.lastAccessed))).take
          (max 1 (p.length / 10))).map (fun e => e.1), v ∈ mapKeys p := by
    intro v hv
    rw [hvs_eq] at hv
    exact hkeysperm.mem_iff.mp (List.mem_of_mem_take hv)
  have hvslen : (((p.mergeSort
        (fun a b : String × CacheEntry α =>
          decide (a.2.lastAccessed ≤ b.2.lastAccessed))).take
          (max 1 (p.length / 10))).map (fun e => e.1)).length =
      max 1 (p.length / 10) := by
    rw [List.length_map, List.length_take, hlen]
    omega
  have hfold := foldl_delete_length (((p.mergeSort
      (fun a b : String × CacheEntry α =>
        decide (a.2.lastAccessed ≤ b.2.lastAccessed))).take
        (max 1 (p.length / 10))).map (fun e => e.1)) p hnd hvsnd hvsmem
  rw [hvslen] at hfold
  unfold evictLRU
  rw [if_neg hne]
  exact hfold

theorem length_set_le {κ α : Type} [DecidableEq κ] (m : List (κ × α)) (k : κ)
    (v : α) : (jsMapSet m k v).length ≤ m.length + 1 := by
  rw [length_set]
  by_cases h : k ∈ mapKeys m
  · simp [h]
  · simp [h]

/-- After any `set`, a partition that respected its size limit still does:
at capacity, eviction removes at least one entry before the insertion. -/
theorem cacheSet_length_le {α : Type} (p : Partition α) (now dflt C : Nat)
    (key : String) (data : α) (ttl : Option Nat)
    (hnd : (mapKeys p).Nodup) (hlen : p.length ≤ C) (hC : 1 ≤ C) :
    (cacheSet p now dflt C key data ttl).length ≤ C := by
  show (jsMapSet (if C ≤ p.length then evictLRU p else p) key
      { data := data, createdAt := now, lastAccessed := now,
        expiresAt := now + durMinutes ttl dflt * 60 * 1000 }).length ≤ C
  by_cases hcap : C ≤ p.length
  · rw [if_pos hcap]
    have hpc : p.length = C := le_antisymm hlen hcap
    have hne : p.length ≠ 0 := by omega
    have hev := evictLRU_length p hnd hne
    have h1 : 1 ≤ max 1 (p.length / 10) := le_max_left _ _
    have hb := length_set_le (evictLRU p) key
      { data := data, createdAt := now, lastAccessed := now,
        expiresAt := now + durMinutes ttl dflt * 60 * 1000 }
    omega
  · rw [if_neg hcap]
    have hb := length_set_le p key
      { data := data, createdAt := now, lastAccessed := now,
        expiresAt := now + durMinutes ttl dflt * 60 * 1000 }
    omega

theorem cacheSet_nodup {α : Type} (p : Partition α) (now dflt C : Nat)
    (key : String) (data : α) (ttl : Option Nat)
    (hnd : (mapKeys p).Nodup) :
    (mapKeys (cacheSet p now dflt C key data ttl)).Nodup := by
  show (mapKeys (jsMapSet (if C ≤ p.length then evictLRU p else p) key
      { data := data, createdAt := now, lastAccessed := now,
        expiresAt := now + durMinutes ttl dflt * 60 * 1000 })).Nodup
  apply mapKeys_set_nodup
  by_cases hcap : C ≤ p.length
  · rw [if_pos hcap]
    exact List.Nodup.sublist (mapKeys_sublist (evictLRU_sublist p)) hnd
  · rw [if_neg hcap]
    exact hnd

theorem cacheGet_snd_preserves {α : Type} (p : Partition α) (now : Nat)
    (key : String) (hnd : (mapKeys p).Nodup) :
    (mapKeys (cacheGet p now key).2).Nodup ∧
      (cacheGet p now key).2.length ≤ p.length := by
  cases hg : jsMapGet p key with
  | none =>
      rw [cacheGet_eq_of_get_none p now key hg]
      exact ⟨hnd, le_refl _⟩
  | some it =>
      rw [cacheGet_eq_of_get_some p now key it hg]
      by_cases hc : it.expiresAt ≠ 0 ∧ it.expiresAt < now
      · rw [if_pos hc]
        exact ⟨List.Nodup.sublist (mapKeys_sublist (jsMapDelete_sublist p key)) hnd,
          List.Sublist.length_le (jsMapDelete_sublist p key)⟩
      · rw [if_neg hc]
        have hkmem : key ∈ mapKeys p :=
          List.mem_map.mpr ⟨(key, it), jsMapGet_mem hg, rfl⟩
        constructor
        · exact mapKeys_set_nodup _ _ _ hnd
        · rw [length_set]
          simp [hkmem]

theorem applyOp_preserves {α : Type} (dflt C : Nat) (p : Partition α)
    (op : CacheOp α) (hnd : (mapKeys p).Nodup) (hlen : p.length ≤ C)
    (hC : 1 ≤ C) :
    (mapKeys (applyOp dflt C p op)).Nodup ∧ (applyOp dflt C p op).length ≤ C := by
  cases op with
  | get now k =>
      obtain ⟨h1, h2⟩ := cacheGet_snd_preserves p now k hnd
      exact ⟨h1, le_trans h2 hlen⟩
  | set now k d ttl =>
      exact ⟨cacheSet_nodup p now dflt C k d ttl hnd,
        cacheSet_length_le p now dflt C k d ttl hnd hlen hC⟩
  | remove k =>
      exact ⟨List.Nodup.sublist (mapKeys_sublist (jsMapDelete_sublist p k)) hnd,
        le_trans (List.Sublist.length_le (jsMapDelete_sublist p k)) hlen⟩
  | clear => exact ⟨List.nodup_nil, by show (0 : Nat) ≤ C; omega⟩
  | cleanup now =>
      exact ⟨List.Nodup.sublist (mapKeys_sublist (List.filter_sublist p)) hnd,
        le_trans (List.Sublist.length_le (List.filter_sublist p)) hlen⟩

/-- The per-partition capacity invariant is preserved by every sequence of
cache operations. -/
theorem runOps_preserves {α : Type} (dflt C : Nat) (hC : 1 ≤ C) :
    ∀ (ops : List (CacheOp α)) (p : Partition α),
      (mapKeys p).Nodup → p.length ≤ C →
      (mapKeys (runOps dflt C p ops)).Nodup ∧ (runOps dflt C p ops).length ≤ C := by
  intro ops
  induction ops with
  | nil => intro p h1 h2; exact ⟨h1, h2⟩
  | cons op t ih =>
      intro p h1 h2
      have hstep := applyOp_preserves dflt C p op h1 h2 hC
      have : runOps dflt C p (op :: t) = runOps dflt C (applyOp dflt C p op) t := rfl
      rw [this]
      exact ih _ hstep.1 hstep.2

/-- C5: starting from any partition within its configured maximum, no
sequence of cache operations ever leaves it above the maximum after a set
completes; at capacity a set first evicts the least-recently-used ten
percent of entries (at least one), and the insertion itself always succeeds
(the key maps to the freshly stored entry afterwards). -/
theorem cache_capacity_invariant :
    (∀ (α : Type) (dflt C : Nat), 1 ≤ C →
        ∀ (ops : List (CacheOp α)) (p : Partition α),
          (mapKeys p).Nodup → p.length ≤ C →
          (runOps dflt C p ops).length ≤ C) ∧
      (∀ (α : Type) (p : Partition α), (mapKeys p).Nodup → p.length ≠ 0 →
        (evictLRU p).length + max 1 (p.length / 10) = p.length) ∧
      (∀ (α : Type) (p : Partition α) (now dflt C : Nat) (key : String)
          (data : α) (ttl : Option Nat),
        jsMapGet (cacheSet p now dflt C key data ttl) key =
          some { data := data, createdAt := now, lastAccessed := now,
                 expiresAt := now + durMinutes ttl dflt * 60 * 1000 }) := by
  refine ⟨?_, ?_, ?_⟩
  · intro α dflt C hC ops p hnd hlen
    exact (runOps_preserves dflt C hC ops p hnd hlen).2
  · intro α p hnd hne
    exact evictLRU_length p hnd hne
  · intro α p now dflt C key data ttl
    exact jsMapGet_set_self _ key _

/-- Witness for C5 at a concrete run: three inserts into a two-entry
partition stay within the capacity, eviction at capacity two removes one
entry, and an insertion is immediately visible. -/
theorem cache_capacity_invariant_witness :
    (runOps 60 2 ([] : Partition Nat)
        [CacheOp.set 0 "a" 1 none, CacheOp.set 0 "b" 2 none,
         CacheOp.set 1 "c" 3 none]).length ≤ 2 ∧
      (evictLRU ([("a", ⟨1, 0, 0, 100⟩), ("b", ⟨2, 0, 5, 100⟩)] :
          Partition Nat)).length + max 1 (2 / 10) = 2 ∧
      jsMapGet (cacheSet ([] : Partition Nat) 0 60 500 "k" 7 none) "k" =
        some { data := 7, createdAt := 0, lastAccessed := 0,
               expiresAt := 0 + durMinutes none 60 * 60 * 1000 } :=
  ⟨cache_capacity_invariant.1 Nat 60 2 (by decide) _ [] (by decide) (by decide),
    cache_capacity_invariant.2.1 Nat _ (by decide) (by decide),
    cache_capacity_invariant.2.2 Nat [] 0 60 500 "k" 7 none⟩

/-- C6 counterexample: with the 60-minute default TTL, an entry stored at
`t0 = 0` expires at `3600000`, and a get at exactly `now = expiresAt` still
returns it — the source treats an entry as stale only when
`expiresAt < now`, not when `now >= expiresAt` as claimed. -/
theorem cacheGet_boundary_cex :
    ((cacheGet (cacheSet ([] : Partition Nat) 0 60 500 "k" 42 none)
        3600000 "k").1.map (fun e => e.data)) = some 42 := rfl

/-- C6 (amended): `get` returns none whenever the key is absent or
`now > expiresAt` strictly (at `now = expiresAt` the entry is still
returned), removing the stale entry as a side effect; a set at `t0` with the
60-minute default TTL yields a hit at `t0 + 59min` and a miss with the entry
removed at `t0 + 61min`. -/
theorem cacheGet_semantics (α : Type) (p : Partition α) (now : Nat)
    (key : String) :
    (jsMapGet p key = none → cacheGet p now key = (none, p)) ∧
      (∀ it : CacheEntry α, jsMapGet p key = some it → it.expiresAt ≠ 0 →
        it.expiresAt < now →
        (cacheGet p now key).1 = none ∧
          jsMapGet (cacheGet p now key).2 key = none) ∧
      (∀ it : CacheEntry α, jsMapGet p key = some it →
        ¬(it.expiresAt ≠ 0 ∧ it.expiresAt < now) →
        (cacheGet p now key).1 = some { it with lastAccessed := now }) ∧
      (∀ (t0 C : Nat) (d : α),
        ((cacheGet (cacheSet p t0 60 C key d none)
            (t0 + 59 * 60 * 1000) key).1.map (fun e => e.data) = some d ∧
          (cacheGet (cacheSet p t0 60 C key d none)
            (t0 + 61 * 60 * 1000) key).1 = none ∧
          jsMapGet (cacheGet (cacheSet p t0 60 C key d none)
            (t0 + 61 * 60 * 1000) key).2 key = none)) := by
  refine ⟨?_, ?_, ?_, ?_⟩
  · intro h
    exact cacheGet_eq_of_get_none p now key h
  · intro it hg hz hlt
    rw [cacheGet_eq_of_get_some p now key it hg, if_pos ⟨hz, hlt⟩]
    exact ⟨rfl, jsMapGet_delete_self p key⟩
  · intro it hg hc
    rw [cacheGet_eq_of_get_some p now key it hg, if_neg hc]
  · intro t0 C d
    have hset : jsMapGet (cacheSet p t0 60 C key d none) key =
        some { data := d, createdAt := t0, lastAccessed := t0,
               expiresAt := t0 + durMinutes none 60 * 60 * 1000 } :=
      jsMapGet_set_self _ key _
    have hdur : durMinutes none 60 = 60 := rfl
    rw [hdur] at hset
    refine ⟨?_, ?_, ?_⟩
    · rw [cacheGet_eq_of_get_some _ _ _ _ hset,
        if_neg (by
          show ¬(t0 + 60 * 60 * 1000 ≠ 0 ∧
            t0 + 60 * 60 * 1000 < t0 + 59 * 60 * 1000)
          omega)]
      rfl
    · rw [cacheGet_eq_of_get_some _ _ _ _ hset,
        if_pos (by
          show t0 + 60 * 60 * 1000 ≠ 0 ∧
            t0 + 60 * 60 * 1000 < t0 + 61 * 60 * 1000
          omega)]
    · rw [cacheGet_eq_of_get_some _ _ _ _ hset,
        if_pos (by
          show t0 + 60 * 60 * 1000 ≠ 0 ∧
            t0 + 60 * 60 * 1000 < t0 + 61 * 60 * 1000
          omega)]
      exact jsMapGet_delete_self _ key

/-- Witness for the amended C6 theorem at a concrete partition and clock:
the stale branch, the hit branch and the 59/61-minute scenario all evaluate
as stated. -/
theorem cacheGet_semantics_witness :
    (cacheGet ([("x", ⟨5, 0, 0, 10⟩)] : Partition Nat) 11 "x").1 = none ∧
      (cacheGet ([("x", ⟨5, 0, 0, 10⟩)] : Partition Nat) 9 "x").1 =
        some ⟨5, 0, 9, 10⟩ ∧
      ((cacheGet (cacheSet ([] : Partition Nat) 0 60 500 "k" 42 none)
          (0 + 59 * 60 * 1000) "k").1.map (fun e => e.data) = some 42 ∧
        (cacheGet (cacheSet ([] : Partition Nat) 0 60 500 "k" 42 none)
          (0 + 61 * 60 * 1000) "k").1 = none ∧
        jsMapGet (cacheGet (cacheSet ([] : Partition Nat) 0 60 500 "k" 42 none)
          (0 + 61 * 60 * 1000) "k").2 "k" = none) :=
  ⟨((cacheGet_semantics Nat [("x", ⟨5, 0, 0, 10⟩)] 11 "x").2.1 ⟨5, 0, 0, 10⟩
      (by decide) (by decide) (by decide)).1,
    (cacheGet_semantics Nat [("x", ⟨5, 0, 0, 10⟩)] 9 "x").2.2.1 ⟨5, 0, 0, 10⟩
      (by decide) (by decide),
    (cacheGet_semantics Nat [] (0 + 59 * 60 * 1000) "k").2.2.2 0 500 42⟩

/-! ## Rate-limit handling (`githubApi.js` `handleRateLimits`,
`CacheService.setDefaultDuration`) -/

/-- The `defaultDurations` object of `CacheService` (minutes per cache
type); its keys are `pr`, `repos`, `org`, `user`, `actions`. -/
structure Durations where
  pr : Nat
  repos : Nat
  org : Nat
  user : Nat
  actions : Nat
deriving DecidableEq, Repr

/-- JS property read `defaultDurations[k]`: `none` models `undefined` for a
key the object does not have (in particular `repo` — the object's key is
`repos`). -/
def Durations.prop (d : Durations) : String → Option Nat
  | "pr" => some d.pr
  | "repos" => some d.repos
  | "org" => some d.org
  | "user" => some d.user
  | "actions" => some d.actions
  | _ => none

/-- JS property write `defaultDurations[k] = v` for the keys the normalised
cache types produce. -/
def Durations.writeProp (d : Durations) (k : String) (v : Nat) : Durations :=
  match k with
  | "pr" => { d with pr := v }
  | "repos" => { d with repos := v }
  | "org" => { d with org := v }
  | "user" => { d with user := v }
  | "actions" => { d with actions := v }
  | _ => d

/-- ASCII uppercase of one character (every cache-type string in the source
is ASCII, so JS `toUpperCase` acts characterwise like this). -/
def asciiUpperChar (c : Char) : Char :=
  if 97 ≤ c.toNat ∧ c.toNat ≤ 122 then Char.ofNat (c.toNat - 32) else c

/-- ASCII uppercase of a string. -/
def asciiUpper (s : String) : String := String.mk (s.toList.map asciiUpperChar)

/-- ASCII lowercase of one character. -/
def asciiLowerChar (c : Char) : Char :=
  if 65 ≤ c.toNat ∧ c.toNat ≤ 90 then Char.ofNat (c.toNat + 32) else c

/-- ASCII lowercase of a string. -/
def asciiLower (s : String) : String := String.mk (s.toList.map asciiLowerChar)

/-- Model of `CacheService._normalizeType`: uppercase the type and map aliases onto
the five canonical partition names ( unknown types default to `REPOS`). -/
def normalizeCacheType (t : String) : String :=
  match asciiUpper t with
  | "PULL_REQUEST" => "PR"
  | "PR" => "PR"
  | "REPO" => "REPOS"
  | "REPOS" => "REPOS"
  | "REPOSITORY" => "REPOS"
  | "REPOSITORIES" => "REPOS"
  | "ORGANIZATION" => "ORG"
  | "ORG" => "ORG"
  | "USER" => "USER"
  | "USERS" => "USER"
  | "ACTION" => "ACTIONS"
  | "ACTIONS" => "ACTIONS"
  | _ => "REPOS"

/-- Model of `CacheService.setDefaultDuration(type, minutes)`: normalise the type and
store the duration only when `minutes > 0`; `minutes` is an `Option Nat`
because the caller may compute it from a missing property (`undefined * n`
is `NaN`, and `NaN > 0` is false, modelled by `none`). -/
def setDefaultDuration (d : Durations) (t : String) (minutes : Option Nat) :
    Durations × Bool :=
  let k := asciiLower (normalizeCacheType t)
  match minutes with
  | some m => if 0 < m then (d.writeProp k m, true) else (d, false)
  | none => (d, false)

/-- JS `parseInt` on the header strings in play: the longest leading run of
decimal digits, `none` for `NaN` when the string starts with none. -/
def parseIntJS (s : String) : Option Nat :=
  let digits := s.toList.takeWhile (fun c => c.isDigit)
  if digits.isEmpty then none
  else some (digits.foldl (fun n c => n * 10 + (c.toNat - 48)) 0)

/-- Model of `parseInt(header || '0')`: an absent header (`null`) and an empty string
are both falsy, so they fall back to `'0'`. -/
def headerNum (h : Option String) : Option Nat :=
  match h with
  | none => parseIntJS "0"
  | some s => if s = "" then parseIntJS "0" else parseIntJS s

/-- JS `<` on a possibly-`NaN` left operand: any comparison with `NaN` is
false. -/
def jsLtNum (a : Option Nat) (b : Nat) : Bool :=
  match a with
  | some n => decide (n < b)
  | none => false

/-- Model of `NaN`-propagating multiplication (`undefined * n` is `NaN`). -/
def jsMulNum (a : Option Nat) (b : Nat) : Option Nat :=
  a.map (fun n => n * b)

/-- One entry reported through the error service by `handleRateLimits`
(category, severity, and the `remaining` / `resetTime` context values; the
rate-limit-exceeded entry carries no `remaining` field, recorded as
`none`). -/
structure RLLogEntry where
  category : String
  severity : String
  remaining : Option Nat
  resetTime : Option Nat
deriving DecidableEq, Repr

/-- Outcome of `handleRateLimits`: the adjusted default durations, the
entries logged, and whether the rate-limit-exceeded error was thrown. -/
structure RLResult where
  durations : Durations
  logs : List RLLogEntry
  threwRateLimit : Bool
deriving DecidableEq, Repr

/-- Model of `handleRateLimits(response, url)` (githubApi.js lines 139-190): parse
`x-ratelimit-remaining` and `x-ratelimit-reset` (with `'0'` fallback for
absent headers), warn below the threshold of 100 and lengthen the `pr` and
`repo` default durations by 2x / 3x under 50 / 20 remaining, and throw a
rate-limit-exceeded error on a non-ok 403 response with exactly zero
remaining. -/
def handleRateLimits (d : Durations) (ok : Bool) (status : Nat)
    (remainingHeader resetHeader : Option String) : RLResult :=
  let remaining := headerNum remainingHeader
  let resetTime := (headerNum resetHeader).map (fun n => n * 1000)
  let warned := jsLtNum remaining 100
  let d1 :=
    if warned then
      if jsLtNum remaining 50 then
        let multiplier := if jsLtNum remaining 20 then 3 else 2
        let da := (setDefaultDuration d "pr" (jsMulNum (d.prop "pr") multiplier)).1
        (setDefaultDuration da "repo" (jsMulNum (da.prop "repo") multiplier)).1
      else d
    else d
  let logs1 :=
    if warned then
      [{ category := "rateLimit", severity := "warning",
         remaining := remaining, resetTime := resetTime : RLLogEntry }]
    else []
  if !ok && (status == 403) && (remaining == some 0) then
    { durations := d1,
      logs := logs1 ++
        [{ category := "rateLimit", severity := "error",
           remaining := none, resetTime := resetTime }],
      threwRateLimit := true }
  else
    { durations := d1, logs := logs1, threwRateLimit := false }

/-- C4: the claim is right about the PR partition and the warning report,
but the REPOSITORY partition keeps its old TTL — the source reads
`defaultDurations.repo`, a key that does not exist (the key is `repos`), so
`setDefaultDuration` receives `NaN` and rejects it.  At remaining 15 with
the stock defaults, `pr` goes from 60 to 180 while `repos` stays 120, and
the RATE_LIMIT/WARNING report carries remaining 15 and the reset time. -/
theorem handleRateLimits_repo_bug :
    handleRateLimits
        { pr := 60, repos := 120, org := 240, user := 1440, actions := 30 }
        true 200 (some "15") (some "1700000000") =
      { durations :=
          { pr := 180, repos := 120, org := 240, user := 1440, actions := 30 },
        logs := [{ category := "rateLimit", severity := "warning",
                   remaining := some 15, resetTime := some 1700000000000 }],
        threwRateLimit := false } := by
  rfl

/-- C9 counterexample: a present but non-numeric `x-ratelimit-remaining`
header does not fall back to 0 — `'nope' || '0'` keeps `'nope'`, whose
`parseInt` is `NaN`, and `NaN < 100` and `NaN === 0` are both false — so a
non-ok 403 response with such a header triggers neither the warning path
nor the rate-limit-exceeded error, contrary to the claim. -/
theorem handleRateLimits_unparsable_cex :
    handleRateLimits
        { pr := 60, repos := 120, org := 240, user := 1440, actions := 30 }
        false 403 (some "nope") (some "1700000000") =
      { durations :=
          { pr := 60, repos := 120, org := 240, user := 1440, actions := 30 },
        logs := [], threwRateLimit := false } := by
  rfl

/-- C9 (amended): an absent rate-limit header is parsed as 0, so the
below-threshold warning fires (remaining 0 in its context) and a non-ok 403
response is surfaced as a rate-limit-exceeded error; a present but
unparsable header however yields `NaN`, which triggers neither the warning
nor the exceeded path and leaves the default durations untouched. -/
theorem handleRateLimits_header_parsing (d : Durations) (ok : Bool)
    (status : Nat) (resetHeader : Option String) :
    ((handleRateLimits d ok status none resetHeader).logs.head? =
        some { category := "rateLimit", severity := "warning",
               remaining := some 0,
               resetTime := (headerNum resetHeader).map (fun n => n * 1000) } ∧
      (handleRateLimits d false 403 none resetHeader).threwRateLimit = true) ∧
      ∀ s : String, parseIntJS s = none → s ≠ "" →
        (handleRateLimits d ok status (some s) resetHeader).logs = [] ∧
          (handleRateLimits d ok status (some s) resetHeader).threwRateLimit =
            false ∧
          (handleRateLimits d ok status (some s) resetHeader).durations = d := by
  have hrem : headerNum (none : Option String) = some 0 := rfl
  refine ⟨⟨?_, ?_⟩, ?_⟩
  · simp only [handleRateLimits, hrem]
    cases h : (!ok && (status == 403) && ((some 0 : Option Nat) == some 0)) with
    | true => simp [h, jsLtNum]
    | false => simp [h, jsLtNum]
  · rfl
  · intro s hs hsne
    have hrems : headerNum (some s) = none := by
      show (if s = "" then parseIntJS "0" else parseIntJS s) = none
      rw [if_neg hsne]
      exact hs
    refine ⟨?_, ?_, ?_⟩ <;> simp [handleRateLimits, hrems, jsLtNum]

/-- Witness for the amended C9 theorem at concrete headers: the absent
header warns with remaining 0 and throws on a 403, while the header
`"nope"` leaves no log, no throw and the durations unchanged. -/
theorem handleRateLimits_header_parsing_witness :
    ((handleRateLimits
          { pr := 60, repos := 120, org := 240, user := 1440, actions := 30 }
          true 200 none (some "1700000000")).logs.head? =
        some { category := "rateLimit", severity := "warning",
               remaining := some 0,
               resetTime := (headerNum (some "1700000000")).map
                 (fun n => n * 1000) } ∧
      (handleRateLimits
          { pr := 60, repos := 120, org := 240, user := 1440, actions := 30 }
          false 403 none (some "1700000000")).threwRateLimit = true) ∧
      ((handleRateLimits
          { pr := 60, repos := 120, org := 240, user := 1440, actions := 30 }
          true 200 (some "nope") (some "1700000000")).logs = [] ∧
        (handleRateLimits
          { pr := 60, repos := 120, org := 240, user := 1440, actions := 30 }
          true 200 (some "nope") (some "1700000000")).threwRateLimit = false ∧
        (handleRateLimits
          { pr := 60, repos := 120, org := 240, user := 1440, actions := 30 }
          true 200 (some "nope") (some "1700000000")).durations =
          { pr := 60, repos := 120, org := 240, user := 1440, actions := 30 }) :=
  ⟨(handleRateLimits_header_parsing _ true 200 (some "1700000000")).1,
    (handleRateLimits_header_parsing _ true 200 (some "1700000000")).2 "nope"
      (by rfl) (by decide)⟩

/-! ## Error classifier (`ErrorService.js`) -/

/-- A JS value appearing in a log context object: a string or a nested
object (the shapes that occur in the source's contexts). -/
inductive JsVal where
  | str (s : String)
  | obj (fields : List (String × JsVal))

/-- String payload of a context value, when it is a string. -/
def JsVal.strVal : JsVal → Option String
  | .str s => some s
  | .obj _ => none

/-- Object payload of a context value, when it is an object. -/
def JsVal.objVal : JsVal → Option (List (String × JsVal))
  | .str _ => none
  | .obj f => some f

/-- A JS object embedded as an association list of context values. -/
abbrev JsObj := List (String × JsVal)

/-- JS truthiness of a context value: the empty string is falsy, all other
strings and every object are truthy. -/
def jsTruthy : JsVal → Bool
  | .str s => !(s == "")
  | .obj _ => true

/-- One structured entry of the error service's in-memory log. -/
structure LogEntry where
  message : String
  category : String
  severity : String
  context : JsObj

/-- The error service's observable state: the bounded in-memory log and the
sequence of entries handed to listeners. -/
structure ErrState where
  errorLog : List LogEntry
  dispatched : List LogEntry

/-- Model of `ErrorService.logError(message, {category, severity, context})`
(ErrorService.js lines 49-92): build the entry — the context object spread
plus the environment's `url` and `userAgent` (passed here as `url`/`ua`) —
append it to the in-memory log, dropping the oldest entry beyond the
100-entry bound, and dispatch it to the listeners.  No sanitization happens
on this path. -/
def logError (st : ErrState) (message category severity : String)
    (context : JsObj) (url ua : String) : ErrState × LogEntry :=
  let entry : LogEntry :=
    { message := message, category := category, severity := severity,
      context := jsMapSet (jsMapSet context "url" (JsVal.str url))
        "userAgent" (JsVal.str ua) }
  let log1 := st.errorLog ++ [entry]
  let log2 := if 100 < log1.length then log1.tail else log1
  ({ errorLog := log2, dispatched := st.dispatched ++ [entry] }, entry)

/-- Model of `ErrorService.sanitizeParams`: copy the params and replace a truthy
`token` field by `'[REDACTED]'` (a falsy token — the empty string — is left
as is). -/
def sanitizeParams (params : JsObj) : JsObj :=
  match jsMapGet params "token" with
  | some v =>
      if jsTruthy v then jsMapSet params "token" (JsVal.str "[REDACTED]")
      else params
  | none => params

/-- JS `String.prototype.includes`, over the character lists. -/
def strIncludes (s pat : String) : Bool :=
  (List.range (s.length + 1)).any
    (fun i => List.isPrefixOf pat.toList (s.toList.drop i))

/-- Model of `ErrorService.logApiError(error, endpoint, params)` (lines 100-133):
derive severity and category from the message text, sanitize the params,
and log with context `{endpoint, params: sanitizedParams}`. -/
def logApiError (st : ErrState) (errMessage endpoint : String)
    (params : JsObj) (url ua : String) : ErrState × LogEntry :=
  let isRateLimit := strIncludes errMessage "rate limit" ||
    strIncludes errMessage "API Rate Limit"
  let severity := if isRateLimit then "warning" else "error"
  let category :=
    if isRateLimit then "rateLimit"
    else if strIncludes errMessage "401" then "auth"
    else if strIncludes errMessage "403" then "auth"
    else if strIncludes errMessage "404" then "api"
    else "network"
  logError st ("API Error: " ++ errMessage) category severity
    [("endpoint", JsVal.str endpoint),
     ("params", JsVal.obj (sanitizeParams params))] url ua

theorem mem_push_bounded {β : Type} (l : List β) (a : β) :
    a ∈ (if 100 < (l ++ [a]).length then (l ++ [a]).tail else (l ++ [a])) := by
  by_cases h : 100 < (l ++ [a]).length
  · rw [if_pos h]
    cases l with
    | nil => simp at h
    | cons x t => simp
  · rw [if_neg h]
    simp

/-- C7 counterexample: a context field literally named `token` passed to a
direct `logError` report is stored in the in-memory log and dispatched to
listeners verbatim — `logError` performs no sanitization (`sanitizeParams`
runs only on `logApiError`'s params object), so the secret value reaches
the log and the listeners, contrary to the claim. -/
theorem logError_token_cex :
    ((logError { errorLog := [], dispatched := [] } "m" "api" "error"
          [("token", JsVal.str "s3cret")] "u" "ua").1.errorLog.head?.map
        (fun e => (jsMapGet e.context "token").map JsVal.strVal)) =
      some (some (some "s3cret")) ∧
      ((logError { errorLog := [], dispatched := [] } "m" "api" "error"
          [("token", JsVal.str "s3cret")] "u" "ua").1.dispatched.head?.map
        (fun e => (jsMapGet e.context "token").map JsVal.strVal)) =
      some (some (some "s3cret")) :=
  ⟨rfl, rfl⟩

/-- C7 (amended): redaction of a context field named `token` happens only on
the `logApiError` path: there, a truthy `token` field of the params object
is replaced by `[REDACTED]` before the entry — carrying the params under
`context.params` — is stored in the in-memory log and dispatched to the
listeners; reports made directly through `logError` store their context
unsanitized. -/
theorem logApiError_token_redacted (st : ErrState)
    (errMessage endpoint : String) (params : JsObj) (url ua : String)
    (v : JsVal) (hget : jsMapGet params "token" = some v)
    (htr : jsTruthy v = true) :
    jsMapGet (sanitizeParams params) "token" =
        some (JsVal.str "[REDACTED]") ∧
      ((jsMapGet (logApiError st errMessage endpoint params url ua).2.context
          "params").map (fun pv => pv.objVal.map
            (fun ps => jsMapGet ps "token"))) =
        some (some (some (JsVal.str "[REDACTED]"))) ∧
      (logApiError st errMessage endpoint params url ua).2 ∈
        (logApiError st errMessage endpoint params url ua).1.errorLog ∧
      (logApiError st errMessage endpoint params url ua).2 ∈
        (logApiError st errMessage endpoint params url ua).1.dispatched := by
  have hsan : jsMapGet (sanitizeParams params) "token" =
      some (JsVal.str "[REDACTED]") := by
    unfold sanitizeParams
    rw [hget]
    show jsMapGet (if jsTruthy v = true then
        jsMapSet params "token" (JsVal.str "[REDACTED]")
      else params) "token" = some (JsVal.str "[REDACTED]")
    rw [if_pos htr]
    exact jsMapGet_set_self _ _ _
  refine ⟨hsan, ?_, ?_, ?_⟩
  · have hctx : (logApiError st errMessage endpoint params url ua).2.context =
        jsMapSet (jsMapSet
          [("endpoint", JsVal.str endpoint),
           ("params", JsVal.obj (sanitizeParams params))]
          "url" (JsVal.str url)) "userAgent" (JsVal.str ua) := rfl
    rw [hctx,
      jsMapGet_set_other _ _ _ _ (by decide),
      jsMapGet_set_other _ _ _ _ (by decide)]
    have hbase : jsMapGet
        [("endpoint", JsVal.str endpoint),
         ("params", JsVal.obj (sanitizeParams params))] "params" =
        some (JsVal.obj (sanitizeParams params)) := by
      simp [jsMapGet]
    rw [hbase]
    simp [JsVal.objVal, hsan]
  · exact mem_push_bounded st.errorLog _
  · simp [logApiError, logError]

/-- Witness for the amended C7 theorem at a concrete report with a truthy
token parameter. -/
theorem logApiError_token_redacted_witness :
    jsMapGet (sanitizeParams [("token", JsVal.str "t0ken"),
        ("page", JsVal.str "1")]) "token" =
        some (JsVal.str "[REDACTED]") ∧
      ((jsMapGet (logApiError { errorLog := [], dispatched := [] } "boom"
          "/users/x" [("token", JsVal.str "t0ken"), ("page", JsVal.str "1")]
          "u" "ua").2.context
          "params").map (fun pv => pv.objVal.map
            (fun ps => jsMapGet ps "token"))) =
        some (some (some (JsVal.str "[REDACTED]"))) ∧
      (logApiError { errorLog := [], dispatched := [] } "boom" "/users/x"
          [("token", JsVal.str "t0ken"), ("page", JsVal.str "1")] "u" "ua").2 ∈
        (logApiError { errorLog := [], dispatched := [] } "boom" "/users/x"
          [("token", JsVal.str "t0ken"), ("page", JsVal.str "1")] "u" "ua").1.errorLog ∧
      (logApiError { errorLog := [], dispatched := [] } "boom" "/users/x"
          [("token", JsVal.str "t0ken"), ("page", JsVal.str "1")] "u" "ua").2 ∈
        (logApiError { errorLog := [], dispatched := [] } "boom" "/users/x"
          [("token", JsVal.str "t0ken"), ("page", JsVal.str "1")] "u" "ua").1.dispatched :=
  logApiError_token_redacted _ "boom" "/users/x" _ "u" "ua"
    (JsVal.str "t0ken") rfl rfl

/-! ## User details (`githubApi.js` `getUserDetails`, lines 229-260) -/

/-- The remote `/users/{username}` profile fields the source reads
(`user.name` may be null). -/
structure RemoteUser where
  login : String
  name : Option String
deriving DecidableEq, Repr

/-- The `{login, name}` object `getUserDetails` produces and caches. -/
structure UserProfile where
  login : String
  name : String
deriving DecidableEq, Repr

/-- JS `a || b` for an optional string left operand: null and the empty
string are falsy. -/
def jsOrStr (a : Option String) (b : String) : String :=
  match a with
  | some s => if s = "" then b else s
  | none => b

/-- Model of `getUserDetails(username)`: consult the USER cache first; on a miss,
the network call (`fetchWithRateLimit`, whose own caching and rate-limit
bookkeeping are abstracted here as its outcome `fetched`) either succeeds —
producing `{login, name: user.name || user.login}`, which is cached — or
fails, in which case a WARNING is logged (the returned Boolean) and the
uncached fallback `{login: username, name: username}` is returned.  The
function is total: every failure is caught. -/
def getUserDetails (st : Partition UserProfile) (now : Nat)
    (dflt limit : Nat) (fetched : Except Unit RemoteUser) (username : String) :
    UserProfile × Partition UserProfile × Bool :=
  match cacheGet st now username with
  | (some cached, st') => (cached.data, st', false)
  | (none, st') =>
      match fetched with
      | .ok user =>
          let data : UserProfile := ⟨user.login, jsOrStr user.name user.login⟩
          (data, cacheSet st' now dflt limit username data none, false)
      | .error _ => (⟨username, username⟩, st', true)

theorem cacheGet_none_not_found {α : Type} (p : Partition α) (now : Nat)
    (key : String) (h : (cacheGet p now key).1 = none) :
    jsMapGet (cacheGet p now key).2 key = none := by
  cases hg : jsMapGet p key with
  | none =>
      rw [cacheGet_eq_of_get_none p now key hg]
      exact hg
  | some it =>
      rw [cacheGet_eq_of_get_some p now key it hg] at h ⊢
      by_cases hc : it.expiresAt ≠ 0 ∧ it.expiresAt < now
      · rw [if_pos hc]
        exact jsMapGet_delete_self p key
      · rw [if_neg hc] at h
        exact absurd h (by simp)

theorem jsMapGet_cacheSet_self {α : Type} (p : Partition α)
    (now dflt limit : Nat) (key : String) (data : α) (ttl : Option Nat) :
    jsMapGet (cacheSet p now dflt limit key data ttl) key =
      some { data := data, createdAt := now, lastAccessed := now,
             expiresAt := now + durMinutes ttl dflt * 60 * 1000 } :=
  jsMapGet_set_self _ key _

/-- C10: `getUserDetails` never throws — on a cache miss with a failed
fetch it logs a WARNING and returns the uncached fallback
`{login: username, name: username}` (the username is still absent from the
USER cache afterwards); on a cache miss with a successful fetch it returns
`{login, name}` with the name falling back to the login when the remote
profile has no display name, and caches that object; on a cache hit it
returns the cached profile. -/
theorem getUserDetails_spec (st : Partition UserProfile)
    (now dflt limit : Nat) (username : String) :
    (∀ e : Unit, (cacheGet st now username).1 = none →
      getUserDetails st now dflt limit (.error e) username =
          (⟨username, username⟩, (cacheGet st now username).2, true) ∧
        jsMapGet (getUserDetails st now dflt limit (.error e) username).2.1
          username = none) ∧
      (∀ u : RemoteUser, (cacheGet st now username).1 = none →
        (getUserDetails st now dflt limit (.ok u) username).1 =
            ⟨u.login, jsOrStr u.name u.login⟩ ∧
          ((jsMapGet (getUserDetails st now dflt limit (.ok u) username).2.1
              username).map (fun en => en.data)) =
            some ⟨u.login, jsOrStr u.name u.login⟩ ∧
          (getUserDetails st now dflt limit (.ok u) username).2.2 = false) ∧
      (∀ (fetched : Except Unit RemoteUser) (c : CacheEntry UserProfile)
          (st' : Partition UserProfile),
        cacheGet st now username = (some c, st') →
        getUserDetails st now dflt limit fetched username =
          (c.data, st', false)) := by
  refine ⟨?_, ?_, ?_⟩
  · intro e hmiss
    cases hc : cacheGet st now username with
    | mk r s2 =>
        rw [hc] at hmiss
        cases hmiss
        have hnone := cacheGet_none_not_found st now username (by rw [hc])
        rw [hc] at hnone
        constructor
        · unfold getUserDetails
          rw [hc]
        · unfold getUserDetails
          rw [hc]
          exact hnone
  · intro u hmiss
    cases hc : cacheGet st now username with
    | mk r s2 =>
        rw [hc] at hmiss
        cases hmiss
        refine ⟨?_, ?_, ?_⟩
        · unfold getUserDetails
          rw [hc]
        · unfold getUserDetails
          rw [hc]
          show ((jsMapGet (cacheSet s2 now dflt limit username
              ⟨u.login, jsOrStr u.name u.login⟩ none) username).map
                (fun en => en.data)) =
            some ⟨u.login, jsOrStr u.name u.login⟩
          rw [jsMapGet_cacheSet_self]
          rfl
        · unfold getUserDetails
          rw [hc]
  · intro fetched c st' hc
    unfold getUserDetails
    rw [hc]

/-- Witness for the C10 theorem: a failed fetch on an empty cache returns
the fallback without caching; a successful fetch with a null display name
falls back to the login and caches; a cache hit returns the stored
profile. -/
theorem getUserDetails_spec_witness :
    (getUserDetails ([] : Partition UserProfile) 5 1440 100 (.error ())
          "alice" =
        (⟨"alice", "alice"⟩, (cacheGet ([] : Partition UserProfile) 5 "alice").2,
          true) ∧
      jsMapGet (getUserDetails ([] : Partition UserProfile) 5 1440 100
          (.error ()) "alice").2.1 "alice" = none) ∧
      ((getUserDetails ([] : Partition UserProfile) 5 1440 100
          (.ok ⟨"bob", none⟩) "bob").1 = ⟨"bob", jsOrStr none "bob"⟩ ∧
        ((jsMapGet (getUserDetails ([] : Partition UserProfile) 5 1440 100
            (.ok ⟨"bob", none⟩) "bob").2.1 "bob").map (fun en => en.data)) =
          some ⟨"bob", jsOrStr none "bob"⟩ ∧
        (getUserDetails ([] : Partition UserProfile) 5 1440 100
          (.ok ⟨"bob", none⟩) "bob").2.2 = false) ∧
      getUserDetails [("carol", ⟨⟨"carol", "Carol"⟩, 0, 0, 99⟩)] 5 1440 100
          (.error ()) "carol" =
        (⟨"carol", "Carol"⟩,
          [("carol", ⟨⟨"carol", "Carol"⟩, 0, 5, 99⟩)], false) :=
  ⟨(getUserDetails_spec [] 5 1440 100 "alice").1 () rfl,
    (getUserDetails_spec [] 5 1440 100 "bob").2.1 ⟨"bob", none⟩ rfl,
    (getUserDetails_spec [("carol", ⟨⟨"carol", "Carol"⟩, 0, 0, 99⟩)] 5 1440 100
        "carol").2.2 (.error ()) ⟨⟨"carol", "Carol"⟩, 0, 5, 99⟩
      [("carol", ⟨⟨"carol", "Carol"⟩, 0, 5, 99⟩)] rfl⟩

/-! ## Pull-request aggregation (`githubApi.js` `getOpenPullRequests`,
`processPullRequests`, `getPullRequestReviews`) -/

/-- One step of slicing a list into consecutive batches of size `n`
(`prs.slice(i, i + batchSize)` in the source): accumulate into the current
batch, flushing it once it holds `n` elements. -/
def chunkStep {β : Type} (n : Nat) (st : List (List β) × List β) (x : β) :
    List (List β) × List β :=
  if st.2.length = n then (st.1 ++ [st.2], [x]) else (st.1, st.2 ++ [x])

/-- Consecutive batches of size `n` (the last may be shorter). -/
def chunksOf {β : Type} (n : Nat) (l : List β) : List (List β) :=
  let st := l.foldl (chunkStep n) ([], [])
  if st.2.isEmpty then st.1 else st.1 ++ [st.2]

theorem chunkStep_inv {β : Type} (n : Nat) :
    ∀ (l : List β) (st : List (List β) × List β),
      (l.foldl (chunkStep n) st).1.flatten ++ (l.foldl (chunkStep n) st).2 =
        st.1.flatten ++ st.2 ++ l := by
  intro l
  induction l with
  | nil => intro st; simp
  | cons x xs ih =>
      intro st
      rw [List.foldl_cons, ih]
      unfold chunkStep
      by_cases h : st.2.length = n
      · rw [if_pos h]
        simp
      · rw [if_neg h]
        simp

/-- Batching never loses or reorders elements. -/
theorem chunksOf_join {β : Type} (n : Nat) (l : List β) :
    (chunksOf n l).flatten = l := by
  unfold chunksOf
  have h := chunkStep_inv n l ([], [])
  simp only [List.flatten_nil, List.nil_append] at h
  by_cases he : (l.foldl (chunkStep n) ([], [])).2.isEmpty
  · rw [if_pos he]
    rw [List.isEmpty_iff] at he
    rw [he, List.append_nil] at h
    exact h
  · rw [if_neg he]
    rw [List.flatten_append]
    simpa using h

/-- Folding a per-batch step that appends filtered results and adds warning
counts over any batching equals processing the concatenation directly. -/
theorem fold_batches_opt {β γ : Type} (f : β → Option γ × Nat) :
    ∀ (chunks : List (List β)) (acc : List γ × Nat),
      chunks.foldl
        (fun acc batch =>
          (acc.1 ++ (batch.map f).filterMap (fun r => r.1),
           acc.2 + ((batch.map f).map (fun r => r.2)).sum)) acc =
      (acc.1 ++ (chunks.flatten.map f).filterMap (fun r => r.1),
       acc.2 + ((chunks.flatten.map f).map (fun r => r.2)).sum) := by
  intro chunks
  induction chunks with
  | nil => intro acc; simp
  | cons c cs ih =>
      intro acc
      rw [List.foldl_cons, ih]
      simp [List.filterMap_append, List.sum_append, Nat.add_assoc]

/-- The same, for a per-item step producing lists of results. -/
theorem fold_batches_list {β γ : Type} (f : β → List γ × Nat) :
    ∀ (chunks : List (List β)) (acc : List γ × Nat),
      chunks.foldl
        (fun acc batch =>
          (acc.1 ++ ((batch.map f).map (fun r => r.1)).flatten,
           acc.2 + ((batch.map f).map (fun r => r.2)).sum)) acc =
      (acc.1 ++ ((chunks.flatten.map f).map (fun r => r.1)).flatten,
       acc.2 + ((chunks.flatten.map f).map (fun r => r.2)).sum) := by
  intro chunks
  induction chunks with
  | nil => intro acc; simp
  | cons c cs ih =>
      intro acc
      rw [List.foldl_cons, ih]
      simp [List.flatten_append, List.sum_append, Nat.add_assoc]

/-- Raw fields of one element of the `/pulls?state=open` response that
`processPullRequests` reads; `userLogin` is `none` when the record has no
`user` object, in which case reading `pr.user.login` throws. -/
structure RawPR where
  number : Nat
  title : String
  htmlUrl : String
  createdAt : String
  updatedAt : String
  userLogin : Option String
  labels : List (String × String)
  draft : Bool
deriving DecidableEq, Repr

/-- A processed pull request as assembled by `processPullRequests` (labels
kept as name/color pairs). -/
structure ProcessedPR where
  number : Nat
  title : String
  htmlUrl : String
  createdAt : String
  updatedAt : String
  repoName : String
  user : UserProfile
  labels : List (String × String)
  reviewState : String
  isDraft : Bool
  reviews : List Review
deriving DecidableEq, Repr

/-- Model of `getPullRequestReviews` (githubApi.js lines 518-550): its own catch logs
a WARNING and returns the empty review list instead of rethrowing; its
caching is abstracted into the fetch outcome.  Returns the reviews and the
number of WARNINGs logged. -/
def getPullRequestReviews (fetched : Except Unit (List Review)) :
    List Review × Nat :=
  match fetched with
  | .ok rs => (rs, 0)
  | .error _ => ([], 1)

/-- The outcome of `getUserDetails` as seen by the pipeline (its cache-miss
path, cache threading abstracted): a success yields
`{login, name || login}`, a failure logs a WARNING and yields the fallback
profile. -/
def userDetailsOutcome (fetched : Except Unit RemoteUser) (username : String) :
    UserProfile × Nat :=
  match fetched with
  | .ok u => (⟨u.login, jsOrStr u.name u.login⟩, 0)
  | .error _ => (⟨username, username⟩, 1)

/-- One pull request's processing inside `processPullRequests`: the review
fetch and the author fetch recover internally, so their failures keep the
PR; the per-PR try/catch returns null — dropping the PR — only when the
processing itself throws, e.g. reading `pr.user.login` of a missing user.
Returns the optional processed PR and the number of WARNINGs logged. -/
def processPR (revFetch : Except Unit (List Review))
    (usrFetch : String → Except Unit RemoteUser) (repoName : String)
    (pr : RawPR) : Option ProcessedPR × Nat :=
  let reviewsWarn := getPullRequestReviews revFetch
  match pr.userLogin with
  | none => (none, reviewsWarn.2 + 1)
  | some login =>
      let userWarn := userDetailsOutcome (usrFetch login) login
      (some { number := pr.number, title := pr.title, htmlUrl := pr.htmlUrl,
              createdAt := pr.createdAt, updatedAt := pr.updatedAt,
              repoName := repoName, user := userWarn.1, labels := pr.labels,
              reviewState := determineReviewState reviewsWarn.1,
              isDraft := pr.draft, reviews := reviewsWarn.1 },
        reviewsWarn.2 + userWarn.2)

/-- Model of `processPullRequests(orgName, repoName, prs)` (lines 448-513): process
the PRs in batches of 4, appending each batch's non-null results in order;
returns the kept PRs and the total number of WARNINGs logged. -/
def processPullRequests (revFetch : Nat → Except Unit (List Review))
    (usrFetch : String → Except Unit RemoteUser) (repoName : String)
    (prs : List RawPR) : List ProcessedPR × Nat :=
  (chunksOf 4 prs).foldl
    (fun acc batch =>
      (acc.1 ++ (batch.map (fun pr =>
          processPR (revFetch pr.number) usrFetch repoName pr)).filterMap
            (fun r => r.1),
       acc.2 + ((batch.map (fun pr =>
          processPR (revFetch pr.number) usrFetch repoName pr)).map
            (fun r => r.2)).sum))
    ([], 0)

/-- Model of `getOpenPullRequests(orgName)` on a cache miss, with the repository
list and the fetch outcomes supplied as oracles: repositories are processed
in batches of 8; a repository whose open-PR listing fails logs a WARNING
and contributes nothing; each repository's processed PRs are appended in
order (the final caching of the assembled list is outside this model). -/
def getOpenPullRequests (repos : List String)
    (prListFetch : String → Except Unit (List RawPR))
    (revFetch : String → Nat → Except Unit (List Review))
    (usrFetch : String → Except Unit RemoteUser) :
    List ProcessedPR × Nat :=
  (chunksOf 8 repos).foldl
    (fun acc batch =>
      (acc.1 ++ ((batch.map (fun repo =>
          match prListFetch repo with
          | .ok prs => processPullRequests (revFetch repo) usrFetch repo prs
          | .error _ => ([], 1))).map (fun r => r.1)).flatten,
       acc.2 + ((batch.map (fun repo =>
          match prListFetch repo with
          | .ok prs => processPullRequests (revFetch repo) usrFetch repo prs
          | .error _ => ([], 1))).map (fun r => r.2)).sum))
    ([], 0)

theorem processPullRequests_eq (revFetch : Nat → Except Unit (List Review))
    (usrFetch : String → Except Unit RemoteUser) (repoName : String)
    (prs : List RawPR) :
    processPullRequests revFetch usrFetch repoName prs =
      ((prs.map (fun pr =>
          processPR (revFetch pr.number) usrFetch repoName pr)).filterMap
            (fun r => r.1),
       ((prs.map (fun pr =>
          processPR (revFetch pr.number) usrFetch repoName pr)).map
            (fun r => r.2)).sum) := by
  unfold processPullRequests
  rw [fold_batches_opt (fun pr =>
    processPR (revFetch pr.number) usrFetch repoName pr) (chunksOf 4 prs) ([], 0)]
  rw [chunksOf_join]
  simp

theorem getOpenPullRequests_eq (repos : List String)
    (prListFetch : String → Except Unit (List RawPR))
    (revFetch : String → Nat → Except Unit (List Review))
    (usrFetch : String → Except Unit RemoteUser) :
    getOpenPullRequests repos prListFetch revFetch usrFetch =
      (((repos.map (fun repo =>
          match prListFetch repo with
          | .ok prs => processPullRequests (revFetch repo) usrFetch repo prs
          | .error _ => ([], 1))).map (fun r => r.1)).flatten,
       ((repos.map (fun repo =>
          match prListFetch repo with
          | .ok prs => processPullRequests (revFetch repo) usrFetch repo prs
          | .error _ => ([], 1))).map (fun r => r.2)).sum) := by
  unfold getOpenPullRequests
  rw [fold_batches_list (fun repo =>
    match prListFetch repo with
    | .ok prs => processPullRequests (revFetch repo) usrFetch repo prs
    | .error _ => ([], 1)) (chunksOf 8 repos) ([], 0)]
  rw [chunksOf_join]
  simp

theorem processPR_some (revFetch : Except Unit (List Review))
    (usrFetch : String → Except Unit RemoteUser) (repoName : String)
    (pr : RawPR) (login : String) (h : pr.userLogin = some login) :
    (processPR revFetch usrFetch repoName pr).1 =
      some { number := pr.number, title := pr.title, htmlUrl := pr.htmlUrl,
             createdAt := pr.createdAt, updatedAt := pr.updatedAt,
             repoName := repoName,
             user := (userDetailsOutcome (usrFetch login) login).1,
             labels := pr.labels,
             reviewState :=
               determineReviewState (getPullRequestReviews revFetch).1,
             isDraft := pr.draft,
             reviews := (getPullRequestReviews revFetch).1 } := by
  unfold processPR
  rw [h]

theorem processPR_warn (usrFetch : String → Except Unit RemoteUser)
    (repoName : String) (pr : RawPR) :
    1 ≤ (processPR (.error ()) usrFetch repoName pr).2 := by
  unfold processPR
  cases h : pr.userLogin with
  | none => simp [getPullRequestReviews]
  | some login =>
      show 1 ≤ (getPullRequestReviews (.error ())).2 +
        (userDetailsOutcome (usrFetch login) login).2
      simp [getPullRequestReviews]

theorem length_filterMap_of_some {β γ : Type} (f : β → Option γ) :
    ∀ l : List β, (∀ x ∈ l, (f x).isSome) →
      (l.filterMap f).length = l.length := by
  intro l
  induction l with
  | nil => intro _; rfl
  | cons x t ih =>
      intro h
      obtain ⟨y, hy⟩ := Option.isSome_iff_exists.mp (h x (List.mem_cons_self _ _))
      rw [List.filterMap_cons, hy]
      simp only [List.length_cons]
      rw [ih (fun z hz => h z (List.mem_cons_of_mem _ hz))]

/-- C1 (amended): a pull request whose review fetch or author-profile fetch
fails is RETAINED in the result set, not dropped — `getPullRequestReviews`
swallows its failure and yields the empty review list (deriving PENDING),
`getUserDetails` swallows its failure and yields the fallback profile —
and a WARNING-level error is logged; a PR is dropped only when processing
itself throws (e.g. a missing author field).  In particular, with 3
repositories of one well-formed open PR each where exactly one PR's review
fetch throws, `getOpenPullRequests` returns exactly 3 PRs. -/
theorem getOpenPullRequests_amended (repos : List String)
    (prListFetch : String → Except Unit (List RawPR))
    (revFetch : String → Nat → Except Unit (List Review))
    (usrFetch : String → Except Unit RemoteUser)
    (hwf : ∀ repo prs, prListFetch repo = .ok prs →
      ∀ pr ∈ prs, pr.userLogin ≠ none) :
    ((getOpenPullRequests repos prListFetch revFetch usrFetch).1.length =
      (repos.map (fun repo =>
        match prListFetch repo with
        | .ok prs => prs.length
        | .error _ => 0)).sum) ∧
    (∀ repo ∈ repos, ∀ prs, prListFetch repo = .ok prs →
      ∀ pr ∈ prs, ∀ login, pr.userLogin = some login →
      revFetch repo pr.number = .error () →
      ({ number := pr.number, title := pr.title, htmlUrl := pr.htmlUrl,
         createdAt := pr.createdAt, updatedAt := pr.updatedAt,
         repoName := repo,
         user := (userDetailsOutcome (usrFetch login) login).1,
         labels := pr.labels, reviewState := "PENDING",
         isDraft := pr.draft, reviews := [] } : ProcessedPR) ∈
        (getOpenPullRequests repos prListFetch revFetch usrFetch).1) ∧
    (∀ repo ∈ repos, ∀ prs, prListFetch repo = .ok prs →
      ∀ pr ∈ prs, ∀ login rs, pr.userLogin = some login →
      usrFetch login = .error () → revFetch repo pr.number = .ok rs →
      ({ number := pr.number, title := pr.title, htmlUrl := pr.htmlUrl,
         createdAt := pr.createdAt, updatedAt := pr.updatedAt,
         repoName := repo, user := ⟨login, login⟩,
         labels := pr.labels, reviewState := determineReviewState rs,
         isDraft := pr.draft, reviews := rs } : ProcessedPR) ∈
        (getOpenPullRequests repos prListFetch revFetch usrFetch).1) ∧
    (∀ repo ∈ repos, ∀ prs, prListFetch repo = .ok prs → ∀ pr ∈ prs,
      revFetch repo pr.number = .error () →
      1 ≤ (getOpenPullRequests repos prListFetch revFetch usrFetch).2) := by
  refine ⟨?_, ?_, ?_, ?_⟩
  · rw [getOpenPullRequests_eq]
    show ((((repos.map (fun repo =>
        match prListFetch repo with
        | .ok prs => processPullRequests (revFetch repo) usrFetch repo prs
        | .error _ => ([], 1))).map (fun r => r.1)).flatten)).length = _
    rw [List.length_flatten, List.map_map, List.map_map]
    apply congrArg List.sum
    apply List.map_congr_left
    intro repo hrepo
    cases hok : prListFetch repo with
    | ok prs =>
        simp only [Function.comp, hok]
        rw [processPullRequests_eq]
        show ((prs.map (fun pr =>
            processPR (revFetch repo pr.number) usrFetch repo pr)).filterMap
              (fun r => r.1)).length = prs.length
        rw [length_filterMap_of_some _ _ ?_, List.length_map]
        intro r hr
        obtain ⟨pr, hpr, hgr⟩ := List.mem_map.mp hr
        have hne := hwf repo prs hok pr hpr
        obtain ⟨login, hlogin⟩ := Option.ne_none_iff_exists'.mp hne
        rw [← hgr, processPR_some _ usrFetch repo pr login hlogin]
        rfl
    | error e => simp [Function.comp, hok]
  · intro repo hrepo prs hok pr hpr login hlogin hrev
    rw [getOpenPullRequests_eq]
    have hFmem : (match prListFetch repo with
        | .ok prs => processPullRequests (revFetch repo) usrFetch repo prs
        | .error _ => ([], 1)) ∈ repos.map (fun repo =>
        match prListFetch repo with
        | .ok prs => processPullRequests (revFetch repo) usrFetch repo prs
        | .error _ => ([], 1)) := List.mem_map_of_mem _ hrepo
    rw [hok] at hFmem
    have h2 := List.mem_map_of_mem (fun r => r.1) hFmem
    refine List.mem_flatten.mpr
      ⟨(processPullRequests (revFetch repo) usrFetch repo prs).1, h2, ?_⟩
    rw [processPullRequests_eq]
    refine List.mem_filterMap.mpr
      ⟨processPR (revFetch repo pr.number) usrFetch repo pr,
        List.mem_map_of_mem _ hpr, ?_⟩
    rw [hrev, processPR_some _ usrFetch repo pr login hlogin]
    rfl
  · intro repo hrepo prs hok pr hpr login rs hlogin husr hrev
    rw [getOpenPullRequests_eq]
    have hFmem : (match prListFetch repo with
        | .ok prs => processPullRequests (revFetch repo) usrFetch repo prs
        | .error _ => ([], 1)) ∈ repos.map (fun repo =>
        match prListFetch repo with
        | .ok prs => processPullRequests (revFetch repo) usrFetch repo prs
        | .error _ => ([], 1)) := List.mem_map_of_mem _ hrepo
    rw [hok] at hFmem
    have h2 := List.mem_map_of_mem (fun r => r.1) hFmem
    refine List.mem_flatten.mpr
      ⟨(processPullRequests (revFetch repo) usrFetch repo prs).1, h2, ?_⟩
    rw [processPullRequests_eq]
    refine List.mem_filterMap.mpr
      ⟨processPR (revFetch repo pr.number) usrFetch repo pr,
        List.mem_map_of_mem _ hpr, ?_⟩
    rw [hrev, processPR_some _ usrFetch repo pr login hlogin, husr]
    rfl
  · intro repo hrepo prs hok pr hpr hrev
    rw [getOpenPullRequests_eq]
    have hcontrib : 1 ≤ (processPullRequests (revFetch repo) usrFetch repo prs).2 := by
      rw [processPullRequests_eq]
      have hx : (processPR (revFetch repo pr.number) usrFetch repo pr).2 ∈
          ((prs.map (fun pr =>
            processPR (revFetch repo pr.number) usrFetch repo pr)).map
              (fun r => r.2)) :=
        List.mem_map_of_mem _ (List.mem_map_of_mem _ hpr)
      have h1 : 1 ≤ (processPR (revFetch repo pr.number) usrFetch repo pr).2 := by
        rw [hrev]
        exact processPR_warn usrFetch repo pr
      exact le_trans h1 (List.single_le_sum (fun _ _ => Nat.zero_le _) _ hx)
    have hFmem : (match prListFetch repo with
        | .ok prs => processPullRequests (revFetch repo) usrFetch repo prs
        | .error _ => ([], 1)) ∈ repos.map (fun repo =>
        match prListFetch repo with
        | .ok prs => processPullRequests (revFetch repo) usrFetch repo prs
        | .error _ => ([], 1)) := List.mem_map_of_mem _ hrepo
    rw [hok] at hFmem
    have hmem := List.mem_map_of_mem (fun r => r.2) hFmem
    exact le_trans hcontrib
      (List.single_le_sum (fun _ _ => Nat.zero_le _) _ hmem)

/-- Concrete open-PR listing for the three-repository scenario: every
repository has exactly one well-formed open pull request. -/
def scenarioPrList (r : String) : Except Unit (List RawPR) :=
  .ok [{ number := 1, title := "t", htmlUrl := "h", createdAt := "c",
         updatedAt := "d", userLogin := some "alice", labels := [],
         draft := false }]

/-- Concrete review-fetch outcomes: the fetch for repository `r2` throws,
the others return no reviews. -/
def scenarioRev (repo : String) (n : Nat) : Except Unit (List Review) :=
  if repo = "r2" then .error () else .ok []

/-- Concrete author-profile fetch outcomes: always successful, with no
display name. -/
def scenarioUsr (login : String) : Except Unit RemoteUser :=
  .ok { login := login, name := none }

/-- C1 counterexample: in the claim's own scenario — three repositories of
one open PR each, exactly one PR's review fetch throwing — the result
contains all 3 PRs with one WARNING logged, not 2 PRs: the review fetch's
failure is swallowed inside `getPullRequestReviews` (WARNING + empty list),
so the affected PR is kept, not dropped. -/
theorem getOpenPullRequests_cex :
    (getOpenPullRequests ["r1", "r2", "r3"] scenarioPrList scenarioRev
        scenarioUsr).1.length = 3 ∧
      (getOpenPullRequests ["r1", "r2", "r3"] scenarioPrList scenarioRev
        scenarioUsr).2 = 1 :=
  ⟨rfl, rfl⟩

/-- Witness for the amended C1 theorem at the three-repository scenario:
all 3 PRs are returned, the review-failed PR is present with empty reviews
and PENDING state, and at least one WARNING is logged. -/
theorem getOpenPullRequests_amended_witness :
    (getOpenPullRequests ["r1", "r2", "r3"] scenarioPrList scenarioRev
        scenarioUsr).1.length = 3 ∧
      ({ number := 1, title := "t", htmlUrl := "h", createdAt := "c",
         updatedAt := "d", repoName := "r2",
         user := ⟨"alice", "alice"⟩, labels := [], reviewState := "PENDING",
         isDraft := false, reviews := [] } : ProcessedPR) ∈
        (getOpenPullRequests ["r1", "r2", "r3"] scenarioPrList scenarioRev
          scenarioUsr).1 ∧
      1 ≤ (getOpenPullRequests ["r1", "r2", "r3"] scenarioPrList scenarioRev
        scenarioUsr).2 := by
  have hwf : ∀ repo prs, scenarioPrList repo = .ok prs →
      ∀ pr ∈ prs, pr.userLogin ≠ none := by
    intro repo prs h pr hpr
    simp only [scenarioPrList, Except.ok.injEq] at h
    rw [← h] at hpr
    rw [List.mem_singleton] at hpr
    rw [hpr]
    simp
  have hthm := getOpenPullRequests_amended ["r1", "r2", "r3"] scenarioPrList
    scenarioRev scenarioUsr hwf
  refine ⟨hthm.1, ?_, ?_⟩
  · exact hthm.2.1 "r2" (by simp) _ rfl _ (List.mem_singleton_self _) "alice"
      rfl rfl
  · exact hthm.2.2.2 "r2" (by simp) _ rfl _ (List.mem_singleton_self _) rfl

/-! ## Full-organization repository enumeration (`getAllRepositories`,
githubApi.js lines 300-377) -/

/-- The repository fields the enumeration reads. -/
structure Repo where
  name : String
  archived : Bool
deriving DecidableEq, Repr

/-- One page's outcome: a failed page fetch is caught inside `loadPages`
and replaced by an empty page (with a WARNING logged). -/
def pageResult (fetch : Nat → Except Unit (List Repo)) (p : Nat) :
    List Repo :=
  match fetch p with
  | .ok rs => rs
  | .error _ => []

/-- Model of `loadPages(startPage, count)`: the outcomes of `count` consecutive
pages starting at `startPage` (the requests run concurrently; the results
arrive in page order through `Promise.all`). -/
def loadPages (fetch : Nat → Except Unit (List Repo))
    (startPage count : Nat) : List (List Repo) :=
  (List.range count).map (fun i => pageResult fetch (startPage + i))

/-- The `forEach` over a chunk's pages: push the non-archived repositories
of each non-empty page. -/
def appendPages (acc : List Repo) (pages : List (List Repo)) : List Repo :=
  pages.foldl
    (fun acc repos =>
      if 0 < repos.length then acc ++ repos.filter (fun r => !r.archived)
      else acc) acc

/-- The `while (hasMoreData)` loop of `getAllRepositories`: fetch chunks of
3 pages, keep going while the previous chunk had a non-empty page, and
break once the next start page exceeds 20 (so page 21 is the last ever
fetched).  Returns the accumulated repositories and the exit page pointer;
the fuel argument only bounds the recursion and is never exhausted for the
reachable arguments. -/
def fetchMoreRepos (fetch : Nat → Except Unit (List Repo)) :
    Nat → Nat → List Repo → Bool → List Repo × Nat
  | _, page, acc, false => (acc, page)
  | 0, page, acc, true => (acc, page)
  | fuel + 1, page, acc, true =>
      let pages := loadPages fetch page 3
      let acc' := appendPages acc pages
      let hasMore' := pages.any (fun repos => decide (0 < repos.length))
      if 20 < page + 3 then (acc', page + 3)
      else fetchMoreRepos fetch fuel (page + 3) acc' hasMore'

/-- Model of `getAllRepositories(orgName)` on a cache miss, with the page fetches
supplied as an oracle: load pages 1-3, then keep loading chunks of 3 pages
while the previous chunk returned data (the continuation after the initial
chunk looks only at page 3), concatenating the non-archived repositories
of every fetched page in page order.  (The final caching of the list is
outside the per-run model.) -/
def getAllRepositories (fetch : Nat → Except Unit (List Repo)) :
    List Repo :=
  (fetchMoreRepos fetch 7 4 (appendPages [] (loadPages fetch 1 3))
    (decide (0 < (pageResult fetch 3).length))).1

theorem appendPages_eq (pages : List (List Repo)) :
    ∀ acc : List Repo,
      appendPages acc pages =
        acc ++ (pages.map (fun repos =>
          repos.filter (fun r => !r.archived))).flatten := by
  induction pages with
  | nil => intro acc; simp [appendPages]
  | cons rs rest ih =>
      intro acc
      show appendPages (if 0 < rs.length then
          acc ++ rs.filter (fun r => !r.archived) else acc) rest = _
      rw [ih]
      by_cases h : 0 < rs.length
      · rw [if_pos h]
        simp
      · rw [if_neg h]
        have : rs = [] := List.length_eq_zero.mp (by omega)
        subst this
        simp

theorem loadPages_filtered (fetch : Nat → Except Unit (List Repo))
    (s : Nat) :
    (loadPages fetch s 3).map (fun repos =>
        repos.filter (fun r => !r.archived)) =
      (List.range' s 3).map (fun p =>
        (pageResult fetch p).filter (fun r => !r.archived)) := by
  rw [List.range'_eq_map_range, List.map_map]
  unfold loadPages
  rw [List.map_map]
  rfl

theorem range'_glue (s m n : Nat) :
    List.range' s m ++ List.range' (s + m) n = List.range' s (m + n) := by
  have h := List.range'_append s m n 1
  rw [one_mul] at h
  rw [h, Nat.add_comm]

/-- The loop invariant of `fetchMoreRepos`: from any reachable loop state
(start page congruent to 1 mod 3, between 4 and 19, enough fuel), the loop
returns the accumulator extended with the filtered contents of the pages
`page .. N`, exits with pointer `N + 1` where `N ≤ 21`, and stops only at
the page-20 safety check, at an empty page, or — when entered with
`hasMore = false` — without fetching anything. -/
theorem fetchMoreRepos_spec (fetch : Nat → Except Unit (List Repo)) :
    ∀ (fuel page : Nat) (acc : List Repo) (hasMore : Bool),
      4 ≤ page → page % 3 = 1 → page ≤ 19 → 22 ≤ page + 3 * fuel →
      ∃ N,
        (fetchMoreRepos fetch fuel page acc hasMore).1 =
          acc ++ ((List.range' page (N + 1 - page)).map (fun p =>
            (pageResult fetch p).filter (fun r => !r.archived))).flatten ∧
        (fetchMoreRepos fetch fuel page acc hasMore).2 = N + 1 ∧
        page - 1 ≤ N ∧ N ≤ 21 ∧
        (N = 21 ∨ pageResult fetch N = [] ∨
          (N = page - 1 ∧ hasMore = false)) := by
  intro fuel
  induction fuel with
  | zero =>
      intro page acc hasMore h4 _ h19 hfuel
      omega
  | succ fuel ih =>
      intro page acc hasMore h4 hmod h19 hfuel
      cases hasMore with
      | false =>
          refine ⟨page - 1, ?_, ?_, le_refl _, by omega, Or.inr (Or.inr ⟨rfl, rfl⟩)⟩
          · show acc = acc ++ _
            have hz : page - 1 + 1 - page = 0 := by omega
            rw [hz]
            simp
          · show page = page - 1 + 1
            omega
      | true =>
          have hunfold : fetchMoreRepos fetch (fuel + 1) page acc true =
              (if 20 < page + 3 then
                  (appendPages acc (loadPages fetch page 3), page + 3)
                else fetchMoreRepos fetch fuel (page + 3)
                  (appendPages acc (loadPages fetch page 3))
                  ((loadPages fetch page 3).any
                    (fun repos => decide (0 < repos.length)))) := rfl
          rw [hunfold]
          by_cases hbreak : 20 < page + 3
          · -- page = 19: final chunk 19-21, then the safety check fires
            have hp : page = 19 := by omega
            subst hp
            rw [if_pos hbreak]
            refine ⟨21, ?_, rfl, by omega, le_refl _, Or.inl rfl⟩
            show appendPages acc (loadPages fetch 19 3) = _
            rw [appendPages_eq, loadPages_filtered]
          · rw [if_neg hbreak]
            have h4' : 4 ≤ page + 3 := by omega
            have hmod' : (page + 3) % 3 = 1 := by omega
            have h19' : page + 3 ≤ 19 := by omega
            have hfuel' : 22 ≤ page + 3 + 3 * fuel := by omega
            obtain ⟨N, heq, hexit, hlo, hhi, hstop⟩ :=
              ih (page + 3) (appendPages acc (loadPages fetch page 3))
                ((loadPages fetch page 3).any
                  (fun repos => decide (0 < repos.length)))
                h4' hmod' h19' hfuel'
            refine ⟨N, ?_, hexit, by omega, hhi, ?_⟩
            · rw [heq, appendPages_eq, loadPages_filtered, List.append_assoc]
              rw [← List.flatten_append, ← List.map_append]
              have hsplit : List.range' page 3 ++ List.range' (page + 3)
                  (N + 1 - (page + 3)) = List.range' page (N + 1 - page) := by
                rw [range'_glue]
                have : 3 + (N + 1 - (page + 3)) = N + 1 - page := by omega
                rw [this]
              rw [hsplit]
            · rcases hstop with h | h | ⟨hN, hmore⟩
              · exact Or.inl h
              · exact Or.inr (Or.inl h)
              · -- the whole chunk page..page+2 was empty; page N = page + 2
                refine Or.inr (Or.inl ?_)
                have hNval : N = page + 2 := by omega
                have hall : ∀ repos ∈ loadPages fetch page 3, repos = [] := by
                  intro repos hrs
                  by_contra hne
                  have hpos : 0 < repos.length :=
                    List.length_pos.mpr hne
                  have : (loadPages fetch page 3).any
                      (fun repos => decide (0 < repos.length)) = true :=
                    List.any_eq_true.mpr ⟨repos, hrs, by simpa using hpos⟩
                  rw [this] at hmore
                  exact Bool.noConfusion hmore
                have hmem : pageResult fetch (page + 2) ∈
                    loadPages fetch page 3 := by
                  unfold loadPages
                  refine List.mem_map.mpr ⟨2, ?_, rfl⟩
                  decide
                rw [hNval]
                exact hall _ hmem

/-- Page oracle on which every page is non-empty: each page holds a single
non-archived repository (page 22's named distinctly). -/
def endlessPages (p : Nat) : Except Unit (List Repo) :=
  .ok [{ name := if p = 22 then "page22" else "page", archived := false }]

/-- C8 counterexample: the enumeration does not always request pages until
an empty page is returned — the source's 20-page safety check
(`if (page > 20) break`) stops it after page 21.  On an oracle where every
page is non-empty (one non-archived repository per page), pages 21 and 22
are both non-empty, yet the result holds exactly the 21 repositories of
pages 1..21 and page 22's repository is absent: fetching stopped although
no empty page was ever returned. -/
theorem getAllRepositories_cap_cex :
    pageResult endlessPages 21 ≠ [] ∧
      pageResult endlessPages 22 ≠ [] ∧
      (getAllRepositories endlessPages).length = 21 ∧
      ({ name := "page22", archived := false } : Repo) ∉
        getAllRepositories endlessPages := by
  refine ⟨?_, ?_, rfl, ?_⟩
  · decide
  · decide
  · decide

/-- C8 (amended): the full-organization enumeration requests the increasing
page numbers 1..N for some N between 3 and 21, and its result is exactly
the concatenation, in page order, of the non-archived repositories of the
fetched pages — every returned repository is non-archived and no
non-archived repository of a fetched page is omitted.  Fetching stops
either upon an empty page (the last fetched page is empty) or at the
source's 20-page safety check (N = 21), so past 21 non-empty pages the
enumeration truncates without an empty page having been returned. -/
theorem getAllRepositories_spec (fetch : Nat → Except Unit (List Repo)) :
    ∃ N, 3 ≤ N ∧ N ≤ 21 ∧
      getAllRepositories fetch =
        ((List.range' 1 N).map (fun p =>
          (pageResult fetch p).filter (fun r => !r.archived))).flatten ∧
      (N = 21 ∨ pageResult fetch N = []) ∧
      (∀ r ∈ getAllRepositories fetch, r.archived = false) ∧
      (∀ p, 1 ≤ p → p ≤ N → ∀ r ∈ pageResult fetch p,
        r.archived = false → r ∈ getAllRepositories fetch) := by
  obtain ⟨N, heq, hexit, hlo, hhi, hstop⟩ :=
    fetchMoreRepos_spec fetch 7 4
      (appendPages [] (loadPages fetch 1 3))
      (decide (0 < (pageResult fetch 3).length))
      (by omega) (by omega) (by omega) (by omega)
  have hres : getAllRepositories fetch =
      ((List.range' 1 N).map (fun p =>
        (pageResult fetch p).filter (fun r => !r.archived))).flatten := by
    unfold getAllRepositories
    rw [heq, appendPages_eq, loadPages_filtered]
    simp only [List.nil_append]
    rw [← List.flatten_append, ← List.map_append]
    have h14 : (1 + 3) = 4 := rfl
    have hn : 3 + (N + 1 - 4) = N := by omega
    have hglue := range'_glue 1 3 (N + 1 - 4)
    rw [h14, hn] at hglue
    rw [hglue]
  refine ⟨N, by omega, hhi, hres, ?_, ?_, ?_⟩
  · rcases hstop with h | h | ⟨hN, hmore⟩
    · exact Or.inl h
    · exact Or.inr h
    · refine Or.inr ?_
      rw [hN]
      have : ¬(0 < (pageResult fetch 3).length) := by
        intro hpos
        rw [decide_eq_true hpos] at hmore
        exact Bool.noConfusion hmore
      have hz : (pageResult fetch 3).length = 0 := by omega
      exact List.length_eq_zero.mp hz
  · intro r hr
    rw [hres] at hr
    obtain ⟨l, hl, hrl⟩ := List.mem_flatten.mp hr
    obtain ⟨p, _, hlp⟩ := List.mem_map.mp hl
    rw [← hlp] at hrl
    have := List.of_mem_filter hrl
    simpa using this
  · intro p h1 h2 r hr harch
    rw [hres]
    refine List.mem_flatten.mpr
      ⟨(pageResult fetch p).filter (fun x => !x.archived), ?_, ?_⟩
    · exact List.mem_map_of_mem _ (List.mem_range'_1.mpr ⟨h1, by omega⟩)
    · exact List.mem_filter.mpr ⟨hr, by simp [harch]⟩

end GhDash
